import Mathlib

/-!
Verification of the serenity-js.org documentation-site tooling:
the changelog-to-blog-post extractor plugin
(src/plugins/changelog/index.js) and the ApiIndex view component
(src/plugins/docusaurus-plugin-typedoc-api/components/ApiIndex.tsx).

Strings are modelled as `List Char` (JS strings, ASCII/UTF-16 code points).
JS regular-expression matching is modelled by bespoke backtracking matchers
that mirror the leftmost-first / lazy / greedy semantics of each concrete
pattern appearing in the source.  Mutable module-level state
(`publishTimes`, `authorsMap`) is threaded explicitly; a thrown JS
`TypeError` is modelled as `Except.error ()`.
-/

namespace SJS

/-- JS string whitespace for `String.prototype.trim` (the ASCII part:
space, tab, newline, carriage return, vertical tab, form feed). -/
def isWS (c : Char) : Bool :=
  c = ' ' ∨ c = '\t' ∨ c = '\n' ∨ c = '\r' ∨ c = Char.ofNat 11 ∨ c = Char.ofNat 12

/-- JS `String.prototype.trim`. -/
def trim (s : List Char) : List Char :=
  ((s.dropWhile isWS).reverse.dropWhile isWS).reverse

/-- JS `String.prototype.replace(pat, rep)` with a nonempty string pattern:
replace the first occurrence of `pat`, scanning left to right; if `pat`
does not occur, the string is unchanged. -/
def replaceFirst (pat rep : List Char) : List Char → List Char
  | [] => if List.isPrefixOf pat [] then rep else []
  | c :: r =>
    if List.isPrefixOf pat (c :: r) then rep ++ (c :: r).drop pat.length
    else c :: replaceFirst pat rep r

/-- JS `String.prototype.replace(/c/g, rep)`: global replacement of a
single character. -/
def replaceAllChar (c : Char) (rep : List Char) (s : List Char) : List Char :=
  (s.map (fun x => if x = c then rep else [x])).flatten

/-- Decimal digit to character (used to render a JS number). -/
def digitChar : Nat → Char
  | 0 => '0' | 1 => '1' | 2 => '2' | 3 => '3' | 4 => '4'
  | 5 => '5' | 6 => '6' | 7 => '7' | 8 => '8' | 9 => '9'
  | _ => '*'

/-- Decimal rendering of a natural number, most significant digit first
(JS template-literal rendering of a nonnegative integer); structural
recursion on a fuel bound (`n` itself bounds the number of divisions),
with the defining recurrence provided by `natStr_eq` below. -/
def natStrGo : Nat → Nat → List Char
  | 0, n => [digitChar (n % 10)]
  | fuel + 1, n =>
    if n < 10 then [digitChar n] else natStrGo fuel (n / 10) ++ [digitChar (n % 10)]

def natStr (n : Nat) : List Char := natStrGo n n

/-- Decimal rendering of a JS integer (template literal `${hour}`):
negative values get a leading minus sign. -/
def intStr : Int → List Char
  | Int.ofNat n => natStr n
  | Int.negSucc m => '-' :: natStr (m + 1)

/-- Value of a digit character. -/
def digitVal (c : Char) : Nat := c.toNat - 48

/-- Reading the rendered digits back gives the number: decimal rendering
is injective. -/
def valOfDigits (l : List Char) : Nat :=
  l.foldl (fun a c => 10 * a + digitVal c) 0

/-!
Matchers for the title pattern
`#{1,3} \[(?<version>.*?)\]\((?<compare_link>.*?)\) \((?<release_date>.*?)\)`
of src/plugins/changelog/index.js, prefixed by `\n` in `processSection`.
All `.*?` groups are lazy and (no `s` flag) cannot cross a newline.
The matchers perform the same backtracking the JS engine does: a lazy
group closes at the earliest boundary whose continuation matches, and
scans on otherwise.
-/

/-- Lazy `.*?` up to a closing parenthesis `\)` (used for the
`release_date` group and for the committer `url` group): returns the
captured text and the remaining input after the `)`. -/
def lazyClose : List Char → Option (List Char × List Char)
  | [] => none
  | c :: r =>
    if c = ')' then some ([], r)
    else if c = '\n' then none
    else (lazyClose r).map (fun p => (c :: p.1, p.2))

/-- Lazy `compare_link` group: `(?<compare_link>.*?)\) \(` followed by the
`release_date` group.  On a `) (` boundary whose continuation fails, the
engine extends the link group past the `)` and keeps scanning. -/
def matchLink : List Char → Option (List Char × (List Char × List Char))
  | [] => none
  | c :: r =>
    if c = '\n' then none
    else
      match (if c = ')' ∧ List.isPrefixOf [' ', '('] r then lazyClose (r.drop 2) else none) with
      | some p => some ([], p.1, p.2)
      | none => (matchLink r).map (fun t => (c :: t.1, t.2))

/-- Lazy `version` group: `(?<version>.*?)\]\(` followed by the link and
date groups. -/
def matchVer : List Char → Option (List Char × (List Char × (List Char × List Char)))
  | [] => none
  | c :: r =>
    if c = '\n' then none
    else
      match (if c = ']' ∧ List.isPrefixOf ['('] r then matchLink (r.drop 1) else none) with
      | some t => some ([], t.1, t.2.1, t.2.2)
      | none => (matchVer r).map (fun t => (c :: t.1, t.2))

/-- Length of the leading run of `#` characters, with the remainder. -/
def hashRun : List Char → Nat × List Char
  | [] => (0, [])
  | c :: r => if c = '#' then ((hashRun r).1 + 1, (hashRun r).2) else (0, c :: r)

/-- Anchored match of `\n#{1,3} \[(version)\]\((link)\) \((date)\)` at the
start of the input: `#{1,3}` is greedy but must be followed by a space, so
it must consume the whole `#` run, whose length must be between 1 and 3.
Returns (number of hashes, version, link, date, rest after the match). -/
def matchTitleAt : List Char → Option (Nat × (List Char × (List Char × (List Char × List Char))))
  | [] => none
  | c :: t =>
    if c = '\n' then
      if 1 ≤ (hashRun t).1 ∧ (hashRun t).1 ≤ 3 then
        if List.isPrefixOf [' ', '['] (hashRun t).2 then
          (matchVer ((hashRun t).2.drop 2)).map (fun q => ((hashRun t).1, q))
        else none
      else none
    else none

/-- Result of `section.match(new RegExp("\n" + titlePattern))`:
`pre` is the text before the (leftmost) match, `hashes`/`version`/`link`/
`date` reconstruct the matched text and its named groups, `rest` is the
text after the match. -/
structure TitleMatch where
  pre : List Char
  hashes : Nat
  version : List Char
  link : List Char
  date : List Char
  rest : List Char
deriving DecidableEq, Repr

/-- Leftmost match of the `\n`-prefixed title pattern in a section. -/
def findTitle : List Char → Option TitleMatch
  | [] => none
  | c :: r =>
    match matchTitleAt (c :: r) with
    | some (k, v, l, d, rest) => some ⟨[], k, v, l, d, rest⟩
    | none => (findTitle r).map (fun tm => { tm with pre := c :: tm.pre })

/-- The text matched by the title pattern (i.e. `titleLineMatch[0]`):
newline, 1-3 hashes, ` [`, version, `](`, link, `) (`, date, `)`. -/
def headingCore (k : Nat) (v l d : List Char) : List Char :=
  List.replicate k '#' ++ (' ' :: '[' :: (v ++ (']' :: '(' :: (l ++ (')' :: ' ' :: '(' :: (d ++ [')']))))))

def buildTitleStr (k : Nat) (v l d : List Char) : List Char :=
  '\n' :: headingCore k v l d

/-!
The section-boundary lookahead `(?=\n#{1,3} \[.*\]\(.*\) \(.*?\))` used to
split the changelog.  Only existence of a match at a position matters, so
greediness of the groups is irrelevant; the groups cannot cross newlines.
-/

/-- Existence of `.*?\)` (no newline before the `)`). -/
def existsTailClose : List Char → Bool
  | [] => false
  | c :: r =>
    if c = ')' then true
    else if c = '\n' then false
    else existsTailClose r

/-- Existence of `.*\) \(` followed by `existsTailClose`. -/
def existsMid : List Char → Bool
  | [] => false
  | c :: r =>
    if c = '\n' then false
    else
      ((c = ')' ∧ List.isPrefixOf [' ', '('] r) ∧ existsTailClose (r.drop 2)) ∨ existsMid r

/-- Existence of `.*\]\(` followed by `existsMid`. -/
def existsHeadBody : List Char → Bool
  | [] => false
  | c :: r =>
    if c = '\n' then false
    else
      ((c = ']' ∧ List.isPrefixOf ['('] r) ∧ existsMid (r.drop 1)) ∨ existsHeadBody r

/-- Does the lookahead boundary pattern `\n#{1,3} \[.*\]\(.*\) \(.*?\)`
match at the start of the given suffix? -/
def headingLookaheadAt : List Char → Bool
  | [] => false
  | c :: t =>
    c = '\n' &&
      (decide (1 ≤ (hashRun t).1 ∧ (hashRun t).1 ≤ 3) &&
        (if List.isPrefixOf [' ', '['] (hashRun t).2 then
          existsHeadBody ((hashRun t).2.drop 2)
        else false))

/-- `String.prototype.split` with a zero-width lookahead regex: the string
is cut at every position (other than the start of the current chunk) where
the lookahead matches.  `acc` holds the current chunk reversed. -/
def splitGo : List Char → List Char → List (List Char)
  | acc, [] => [acc.reverse]
  | acc, c :: r =>
    if acc.isEmpty then splitGo [c] r
    else if headingLookaheadAt (c :: r) then acc.reverse :: splitGo [c] r
    else splitGo (c :: acc) r

/-- `sanitised.split(new RegExp(sectionLimitPattern))`. -/
def splitSections (s : List Char) : List (List Char) :=
  splitGo [] s

/-!
Committer parsing.  `processSection` matches `/## Committers: \d.*/s`
(with the `s` flag, so `.*` greedily reaches the end of the string), then
the global pattern `- .*` over the block, then for each bullet line
the pattern `- (?:(?<name>.*?) \()?\[@(?<alias>.*)\]\((?<url>.*?)\)\)?` and finally
accesses `.groups` on the result, throwing a `TypeError` when a bullet
line does not match.
-/

def isDigitCh (c : Char) : Bool := '0' ≤ c ∧ c ≤ '9'

/-- Does `## Committers: \d` match at the start of the suffix? -/
def committersAt (s : List Char) : Bool :=
  List.isPrefixOf (("## Committers: ").toList) s &&
    (match s.drop 15 with
     | c :: _ => isDigitCh c
     | [] => false)

/-- `content.match(/## Committers: \d.*/s)`: the match extends greedily to
the end of the string, so the result is the whole suffix from the leftmost
occurrence. -/
def findCommittersBlock : List Char → Option (List Char)
  | [] => none
  | c :: r =>
    if committersAt (c :: r) then some (c :: r) else findCommittersBlock r

/-- JS `.` (no `s` flag) excludes line terminators. -/
def isLineEnd (c : Char) : Bool := c = '\n' ∨ c = '\r'

/-- `block.match` with the global pattern `- .*`: every (leftmost,
non-overlapping) occurrence of `- ` followed greedily by the rest of the
line. -/
def dashLinesGo : Option (List Char) → List Char → List (List Char)
  | none, [] => []
  | some acc, [] => [acc.reverse]
  | none, '-' :: ' ' :: r => dashLinesGo (some [' ', '-']) r
  | none, _ :: r => dashLinesGo none r
  | some acc, c :: r =>
    if isLineEnd c then acc.reverse :: dashLinesGo none r else dashLinesGo (some (c :: acc)) r

def dashLines (s : List Char) : List (List Char) := dashLinesGo none s

/-- Greedy `(?<alias>.*)\]\(` followed by the lazy url group `(?<url>.*?)\)`;
the engine prefers the longest alias whose continuation matches.
Returns (alias, url, rest). -/
def aliasGreedy : List Char → Option (List Char × (List Char × List Char))
  | [] => none
  | c :: r =>
    if c = '\n' then none
    else
      match aliasGreedy r with
      | some t => some (c :: t.1, t.2)
      | none =>
        if c = ']' ∧ List.isPrefixOf ['('] r then
          (lazyClose (r.drop 1)).map (fun p => ([], p.1, p.2))
        else none

/-- Literal `\[@` followed by alias/url. -/
def tryBracket (s : List Char) : Option (List Char × (List Char × List Char)) :=
  if List.isPrefixOf ['[', '@'] s then aliasGreedy (s.drop 2) else none

/-- The greedy-optional display-name group `(?:(?<name>.*?) \()?`: lazily
search for a ` (` boundary whose continuation `\[@...` matches; on failure
extend the name.  Returns (name, alias, url, rest). -/
def nameSearch : List Char → Option (List Char × (List Char × (List Char × List Char)))
  | [] => none
  | c :: r =>
    if c = '\n' then none
    else
      match (if c = ' ' ∧ List.isPrefixOf ['('] r then tryBracket (r.drop 1) else none) with
      | some t => some ([], t.1, t.2)
      | none => (nameSearch r).map (fun t => (c :: t.1, t.2))

/-- Anchored attempt of the committer-line pattern:
`- ` then the greedy-optional name group (preferred present), else the
bare `\[@(?<alias>.*)\]\((?<url>.*?)\)`.  The trailing `\)?` affects only
the extent of the whole match, which the source never uses.
Returns (optional name group, alias, url). -/
def parseCommitterAt (s : List Char) : Option (Option (List Char) × (List Char × List Char)) :=
  if List.isPrefixOf ['-', ' '] s then
    match nameSearch (s.drop 2) with
    | some t => some (some t.1, t.2.1, t.2.2.1)
    | none => (tryBracket (s.drop 2)).map (fun t => (none, t.1, t.2.1))
  else none

/-- Leftmost match of the committer-line pattern in a bullet line
(`line.match(...)`), `none` when the regex does not match (in which case
the source throws on `.groups`). -/
def execCommitter : List Char → Option (Option (List Char) × (List Char × List Char))
  | [] => none
  | c :: r =>
    match parseCommitterAt (c :: r) with
    | some g => some g
    | none => execCommitter r

/-- A parsed committer:
`{...groups, name: name ?? alias, imageURL: github avatar}` (the source
spreads the regex groups and overrides `name`). -/
structure Author where
  name : List Char
  alias' : List Char
  url : List Char
  imageURL : List Char
deriving DecidableEq, Repr, Inhabited

def mkAuthor (g : Option (List Char) × (List Char × List Char)) : Author :=
  { name := g.1.getD g.2.1
    alias' := g.2.1
    url := g.2.2
    imageURL := ("https://github.com/").toList ++ g.2.1 ++ (".png").toList }

/-- Parse every bullet line; a non-matching line is the thrown `TypeError`. -/
def parseCommitterLines : List (List Char) → Except Unit (List Author)
  | [] => Except.ok []
  | ln :: rest =>
    match execCommitter ln with
    | none => Except.error ()
    | some g => (parseCommitterLines rest).map (fun as => mkAuthor g :: as)

/-- Code-point lexicographic comparison on strings, modelling
`a.url.localeCompare(b.url) <= 0` (the locale-sensitive order of
`localeCompare` is determinised to code-point order; no claim depends on
the relative order of distinct urls). -/
def lexLe : List Char → List Char → Bool
  | [], _ => true
  | _ :: _, [] => false
  | a :: as, b :: bs => if a = b then lexLe as bs else decide (a < b)

def urlLe (a b : Author) : Prop := lexLe a.url b.url = true

instance : DecidableRel urlLe :=
  fun a b => inferInstanceAs (Decidable (lexLe a.url b.url = true))

/-- `authors.sort((a, b) => a.url.localeCompare(b.url))`: JS `sort` is
stable, and a stable sort by a total comparator has a unique result, so
insertion sort is an exact model. -/
def sortAuthors (as : List Author) : List Author :=
  List.insertionSort urlLe as

/-- Extraction of the committers of a section body: `none` when there is
no `## Committers:` block, `Except.error` when the block has no bullet
lines (`null.map` throws) or some bullet line fails to match
(`null.groups` throws). -/
def sectionAuthors (content : List Char) : Except Unit (Option (List Author)) :=
  match findCommittersBlock content with
  | none => Except.ok none
  | some block =>
    match dashLines block with
    | [] => Except.error ()
    | ls => (parseCommitterLines ls).map (fun as => some (sortAuthors as))

/-!
Module-level mutable state of the plugin and `processSection` itself.
-/

/-- `publishTimes` (a `Set` of strings) and `authorsMap` (a string-keyed
object, modelled as an association list in insertion order with in-place
overwrite, which is exactly JS object-key semantics). -/
structure ModState where
  publishTimes : List (List Char)
  authorsMap : List (List Char × Author)
deriving DecidableEq, Repr

def initialState : ModState := ⟨[], []⟩

/-- JS object assignment `authorsMap[alias] = author`. -/
def setKey : List (List Char × Author) → List Char → Author → List (List Char × Author)
  | [], k, v => [(k, v)]
  | (k0, v0) :: rest, k, v =>
    if k0 = k then (k0, v) :: rest else (k0, v0) :: setKey rest k v

/-- JS object read `authorsMap[alias]`. -/
def lookupKey : List (List Char × Author) → List Char → Option Author
  | [], _ => none
  | (k0, v0) :: rest, k => if k0 = k then some v0 else lookupKey rest k

/-- The timestamp string `` `${date}T${hour}:00` ``. -/
def timeString (date : List Char) (h : Int) : List Char :=
  date ++ ('T' :: (intStr h ++ ((":00").toList)))

/-- The `while (publishTimes.has(...)) hour -= 1` loop, with enough fuel:
`publishTimes` holds at most `times.length` distinct strings and the
candidate strings for distinct hours are distinct, so the loop always
exits within `times.length + 1` probes (proved below). -/
def findFreeHourAux (times : List (List Char)) (date : List Char) : Nat → Int → Int
  | 0, h => h
  | fuel + 1, h =>
    if timeString date h ∈ times then findFreeHourAux times date fuel (h - 1) else h

def findFreeHour (times : List (List Char)) (date : List Char) : Int :=
  findFreeHourAux times date (times.length + 1) 20

/-- JS `Set.prototype.add`. -/
def setAdd (t : List Char) (times : List (List Char)) : List (List Char) :=
  if t ∈ times then times else t :: times

/-- The `authors:` front-matter block (empty when `authors` is null). -/
def authorsMarkdown : Option (List Author) → List Char
  | none => []
  | some as =>
    ("authors:\n").toList ++
      List.intercalate ['\n']
        (as.map (fun a => ("  - ").toList ++ (Char.ofNat 39 :: (a.alias' ++ [Char.ofNat 39]))))

/-- `[...].filter(Boolean).join("\n")`: empty strings are dropped. -/
def filterJoinNL (parts : List (List Char)) : List Char :=
  List.intercalate ['\n'] (parts.filter (fun p => ¬ p.isEmpty))

/-- `content.replace(/####?/g, "##")`: each run of 3 or 4 hashes (greedy,
scanning left to right) becomes `##`. -/
def replaceHashes : List Char → List Char
  | '#' :: '#' :: '#' :: '#' :: r => '#' :: '#' :: replaceHashes r
  | '#' :: '#' :: '#' :: r => '#' :: '#' :: replaceHashes r
  | c :: r => c :: replaceHashes r
  | [] => []

/-- `section.replace(titleLineMatch[0], "").trim()`. -/
def sectionContent (tm : TitleMatch) (sec : List Char) : List Char :=
  trim (replaceFirst (buildTitleStr tm.hashes tm.version tm.link tm.date) [] sec)

/-- The committers of a section as `processSection` computes them
(`ok none` when the section has no title or no committers block). -/
def sectionCommitters (sec : List Char) : Except Unit (Option (List Author)) :=
  match findTitle sec with
  | none => Except.ok none
  | some tm => sectionAuthors (sectionContent tm sec)

/-- Aliases touched by a section (empty when the section has no title, no
committers block, or fails to parse). -/
def sectionAliases (sec : List Char) : List (List Char) :=
  match sectionCommitters sec with
  | Except.ok (some l) => l.map (fun a => a.alias')
  | _ => []

/-- One output document `{title, content}`. -/
structure Doc where
  title : List Char
  content : List Char
deriving DecidableEq, Repr

/-- The document built for one titled section: front-matter block (date
with the synthetic hour, title, optional author list), demoted body. -/
def sectionDoc (st : ModState) (tm : TitleMatch) (content : List Char)
    (authorsOpt : Option (List Author)) : Doc :=
  { title := tm.version
    content :=
      filterJoinNL
        [ ("---").toList,
          ("date: ").toList ++ timeString tm.date (findFreeHour st.publishTimes tm.date),
          ("title: ").toList ++ tm.version,
          authorsMarkdown authorsOpt,
          ("---").toList,
          ("# ").toList ++ tm.version,
          ("<!-- truncate -->").toList,
          ("[code diff](").toList ++ (tm.link ++ [')']),
          replaceHashes content ] }

/-- The module-state update of one titled section: the reserved timestamp
is added to `publishTimes` and the committers are merged into
`authorsMap` (last write wins per alias). -/
def sectionState (st : ModState) (tm : TitleMatch) (authorsOpt : Option (List Author)) :
    ModState :=
  { publishTimes :=
      setAdd (timeString tm.date (findFreeHour st.publishTimes tm.date)) st.publishTimes
    authorsMap :=
      match authorsOpt with
      | none => st.authorsMap
      | some as => as.foldl (fun m a => setKey m a.alias' a) st.authorsMap }

/-- `processSection`: returns `ok (none, st)` for a titleless section,
`error` when committer parsing throws, and otherwise the formatted
document together with the updated module state. -/
def processSection (st : ModState) (sec : List Char) : Except Unit (Option Doc × ModState) :=
  match findTitle sec with
  | none => Except.ok (none, st)
  | some tm =>
    match sectionAuthors (sectionContent tm sec) with
    | Except.error e => Except.error e
    | Except.ok authorsOpt =>
      Except.ok
        (some (sectionDoc st tm (sectionContent tm sec) authorsOpt),
          sectionState st tm authorsOpt)

/-- `sections.map(processSection).filter(Boolean)`, threading the module
state left to right; a thrown error aborts the run. -/
def runSections (st : ModState) : List (List Char) → Except Unit (ModState × List Doc)
  | [] => Except.ok (st, [])
  | sec :: rest =>
    match processSection st sec with
    | Except.error e => Except.error e
    | Except.ok (od, st1) =>
      match runSections st1 rest with
      | Except.error e => Except.error e
      | Except.ok (st2, docs) =>
        Except.ok (st2, match od with | none => docs | some d => d :: docs)

/-- The state part of a run. -/
def runState (st : ModState) (secs : List (List Char)) : Except Unit ModState :=
  (runSections st secs).map (fun p => p.1)

/-- The sanitisation step of `loadContent`: escape angle brackets and
"escape" the scope token.  In the source the replacement string
`'\@serenity-js/'` is the plain string `@serenity-js/` (a `\@` escape in a
JS string literal is just `@`), so the third replace is an identity. -/
def sanitize (s : List Char) : List Char :=
  replaceFirst (("@serenity-js/").toList) (("@serenity-js/").toList)
    (replaceAllChar '>' (("&gt;").toList) (replaceAllChar '<' (("&lt;").toList) s))

/-- The section-extraction pipeline of `loadContent` over one changelog
text, from a given module state (which persists across invocations). -/
def changelogPipeline (st : ModState) (text : List Char) : Except Unit (ModState × List Doc) :=
  runSections st (splitSections (sanitize text))

/-- The state part of one `loadContent` invocation. -/
def pipelineState (st : ModState) (text : List Char) : Except Unit ModState :=
  (changelogPipeline st text).map (fun p => p.1)

/-!
The ApiIndex component
(src/plugins/docusaurus-plugin-typedoc-api/components/ApiIndex.tsx).
-/

/-- The string constants of `addVersionToUrl`, as character lists:
`api/next`, `/api`, `/api/`, `current`, `next`. -/
def apiNextPat : List Char := ['a', 'p', 'i', '/', 'n', 'e', 'x', 't']

def slashApiPat : List Char := ['/', 'a', 'p', 'i']

def slashApiSlashPat : List Char := ['/', 'a', 'p', 'i', '/']

def currentPat : List Char := ['c', 'u', 'r', 'r', 'e', 'n', 't']

def nextPat : List Char := ['n', 'e', 'x', 't']

/-- Checks `url.match` against the pattern `api\/([\d.]+)`: is there an
occurrence of `api/` immediately followed by at least one digit-or-dot
character? -/
def digitDot (c : Char) : Bool := isDigitCh c || c = '.'

def apiNumAt : List Char → Bool
  | 'a' :: 'p' :: 'i' :: '/' :: c :: _ => digitDot c
  | _ => false

def hasApiNum : List Char → Bool
  | [] => false
  | c :: r => apiNumAt (c :: r) || hasApiNum r

/-- JS `String.prototype.includes`. -/
def containsStr (pat : List Char) : List Char → Bool
  | [] => List.isPrefixOf pat []
  | c :: r => List.isPrefixOf pat (c :: r) || containsStr pat r

structure PropVersionMetadata where
  version : List Char
deriving DecidableEq, Repr

structure GlobalVersion where
  name : List Char
deriving DecidableEq, Repr

/-- The version segment actually inserted: the sentinel name `current`
maps to `next`. -/
def effVersion (pv : GlobalVersion) : List Char :=
  if pv.name = currentPat then nextPat else pv.name

/-- `addVersionToUrl` from ApiIndex.tsx.  The JS guard
`!url.match(...) && !url.includes('api/next') && preferredVersion &&
preferredVersion.name !== latestVersion.version` is rendered as the
equivalent nest of tests; when the guard fails the url is returned
unchanged. -/
def addVersionToUrl (url : List Char) (latestVersion : PropVersionMetadata)
    (preferredVersion : Option GlobalVersion) : List Char :=
  match preferredVersion with
  | none => url
  | some pv =>
    if hasApiNum url then url
    else if containsStr apiNextPat url then url
    else if pv.name = latestVersion.version then url
    else if List.isSuffixOf slashApiPat url then url ++ '/' :: effVersion pv
    else replaceFirst slashApiSlashPat (slashApiSlashPat ++ effVersion pv ++ ['/']) url

structure Reflection where
  permalink : List Char
deriving DecidableEq, Repr

structure EntryPoint where
  reflection : Reflection
deriving DecidableEq, Repr

structure PackageGroup where
  entryPoints : List EntryPoint
deriving DecidableEq, Repr

/-- The redirect side effect of the `useEffect` in `ApiIndex`: the value
passed to `history.replace`, or `none` when `history.replace` is not
called.  Accessing `entryPoints[0]` of a package without entry points is a
thrown `TypeError` (`Except.error`). -/
def apiIndexRedirect (packages : List PackageGroup) (pathname : List Char)
    (latestVersion : PropVersionMetadata) (preferredVersion : Option GlobalVersion) :
    Except Unit (Option (List Char)) :=
  match packages with
  | [p] =>
    match p.entryPoints with
    | e :: _ =>
      Except.ok (some (addVersionToUrl e.reflection.permalink latestVersion preferredVersion))
    | [] => Except.error ()
  | _ =>
    if preferredVersion.isSome then
      Except.ok (some (addVersionToUrl pathname latestVersion preferredVersion))
    else Except.ok none

/-!
Well-formed changelogs, for stating the universal extraction claims:
a changelog composed of release sections, each a newline, a heading line
`#{1,3} [version](link) (date)` and a free-form body.
-/

structure Release where
  hashes : Nat
  version : List Char
  link : List Char
  date : List Char
  body : List Char
deriving DecidableEq, Repr

def renderSection (r : Release) : List Char :=
  buildTitleStr r.hashes r.version r.link r.date ++ r.body

def renderChangelog (rs : List Release) : List Char :=
  (rs.map renderSection).flatten

/-- Well-formedness conditions under which a rendered section parses back
to exactly its own fields: the heading pieces contain no newline and no
closing delimiter of their own group, no angle bracket (so sanitisation is
the identity), and the body contains no `#` (so it produces no spurious
heading, committers block or demoted sub-heading) and no angle bracket. -/
def WFRelease (r : Release) : Prop :=
  1 ≤ r.hashes ∧ r.hashes ≤ 3 ∧
  ('\n' ∉ r.version ∧ ']' ∉ r.version ∧ '<' ∉ r.version ∧ '>' ∉ r.version) ∧
  ('\n' ∉ r.link ∧ ')' ∉ r.link ∧ '<' ∉ r.link ∧ '>' ∉ r.link) ∧
  ('\n' ∉ r.date ∧ ')' ∉ r.date ∧ '<' ∉ r.date ∧ '>' ∉ r.date) ∧
  ('#' ∉ r.body ∧ '<' ∉ r.body ∧ '>' ∉ r.body)

/-- A release heading with no preceding newline, as at the very start of a
file (claim C10). -/
def renderSectionNoNewline (r : Release) : List Char :=
  headingCore r.hashes r.version r.link r.date ++ r.body

/-!
The claim-side description of `addVersionToUrl` (claim C7), following the
specification text: already-versioned or `api/next` urls are untouched;
otherwise, when a preferred version exists and differs from the latest,
the version is appended after a url ending in `/api`, and in all other
cases the version is inserted into the first `/api/` segment of the url —
undefined (`none`) when no such segment exists, which is where the claim
and the code part ways.
-/

/-- Decompose a url at the first occurrence of `/api/`. -/
def firstApiSplit : List Char → Option (List Char × List Char)
  | [] => none
  | c :: r =>
    if List.isPrefixOf slashApiSlashPat (c :: r) then some ([], (c :: r).drop 5)
    else (firstApiSplit r).map (fun p => (c :: p.1, p.2))

/-- Modelled from the claim text of C7 (spec §4.2, version-URL
adjustment), not from the source. -/
def addVersionToUrlClaim (url : List Char) (latestVersion : PropVersionMetadata)
    (preferredVersion : Option GlobalVersion) : Option (List Char) :=
  if hasApiNum url || containsStr apiNextPat url then some url
  else
    match preferredVersion with
    | none => some url
    | some pv =>
      if pv.name = latestVersion.version then some url
      else if List.isSuffixOf slashApiPat url then some (url ++ '/' :: effVersion pv)
      else
        (firstApiSplit url).map
          (fun p => p.1 ++ (slashApiSlashPat ++ (effVersion pv ++ '/' :: p.2)))

/-- The amended claim C7: same as `addVersionToUrlClaim`, totalised by
leaving a url without any `/api/` segment unchanged. -/
def addVersionToUrlSpec (url : List Char) (latestVersion : PropVersionMetadata)
    (preferredVersion : Option GlobalVersion) : List Char :=
  (addVersionToUrlClaim url latestVersion preferredVersion).getD url

/-- The preferred versions for which the insertion is self-stabilising:
absent, equal to the latest, or with an effective name that starts with a
digit, a dot, or `next` (so that the rewritten url matches the
already-versioned or `api/next` guard on a second pass). -/
def IdempotentPref (latestVersion : PropVersionMetadata)
    (preferredVersion : Option GlobalVersion) : Prop :=
  match preferredVersion with
  | none => True
  | some pv =>
    pv.name = latestVersion.version ∨
      (∃ c t, effVersion pv = c :: t ∧ digitDot c = true) ∨
      nextPat <+: effVersion pv

/-!
Theorems: committer-line parsing (claim C4).
-/

/-- Is there an adjacent ` (` pair (what the display-name group needs)? -/
def pairSP : List Char → Bool
  | [] => false
  | c :: r => if c = ' ' ∧ List.isPrefixOf ['('] r then true else pairSP r

/-- Is there an adjacent `](` pair (what closing the alias group needs)? -/
def pairBP : List Char → Bool
  | [] => false
  | c :: r => if c = ']' ∧ List.isPrefixOf ['('] r then true else pairBP r

/-- The bullet-line form `- [@alias](url)` as the code actually accepts it
(the claim wrote it without the `@`). -/
def committerLine1 (a u : List Char) : List Char :=
  '-' :: ' ' :: '[' :: '@' :: (a ++ (']' :: '(' :: (u ++ [')'])))

/-- The bullet-line form `- Name ([@alias](url))` as the code actually
accepts it (the claim omitted the parentheses around the link). -/
def committerLine2 (n a u : List Char) : List Char :=
  '-' :: ' ' :: (n ++ (' ' :: '(' :: '[' :: '@' :: (a ++ (']' :: '(' :: (u ++ [')', ')'])))))

/-- One entry per alias: the registry keys are pairwise distinct. -/
def KeysNodup (m : List (List Char × Author)) : Prop := (m.map Prod.fst).Nodup

def bobAuthor : Author :=
  { name := ("bob").toList, alias' := ("bob").toList, url := ("u").toList,
    imageURL := ("https://github.com/bob.png").toList }

def c6State1 : ModState := ⟨[("cT20:00").toList], [((("bob").toList), bobAuthor)]⟩

def c6State2 : ModState :=
  ⟨[("fT20:00").toList, ("cT20:00").toList], [((("bob").toList), bobAuthor)]⟩

def c5AuthorY : Author :=
  { name := ("bob").toList, alias' := ("bob").toList, url := ("u2").toList,
    imageURL := ("https://github.com/bob.png").toList }

def c5Final : ModState :=
  ⟨[("yT20:00").toList, ("vT20:00").toList, ("rT20:00").toList],
    [((("bob").toList), c5AuthorY)]⟩

def c2SecA : List Char := ("\n# [a](b) (c)").toList

def c2SecB : List Char := ("\n# [e](f) (c)").toList

/-- The `TitleMatch` that a rendered well-formed section produces. -/
def renderTM (r : Release) : TitleMatch :=
  ⟨[], r.hashes, r.version, r.link, r.date, r.body⟩

def c1Rel : Release :=
  ⟨2, ("1.0").toList, ("L").toList, ("D").toList, ("\nbody").toList⟩

instance : DecidablePred WFRelease := fun r => by
  unfold WFRelease
  infer_instance

theorem natStrGo_congr (fuel1 : Nat) : ∀ fuel2 n, n ≤ fuel1 → n ≤ fuel2 →
    natStrGo fuel1 n = natStrGo fuel2 n := by
  induction fuel1 with
  | zero =>
    intro fuel2 n h1 h2
    have hn : n = 0 := by omega
    subst hn
    cases fuel2 with
    | zero => rfl
    | succ fuel2 => simp [natStrGo]
  | succ fuel1 ih =>
    intro fuel2 n h1 h2
    cases fuel2 with
    | zero =>
      have hn : n = 0 := by omega
      subst hn
      simp [natStrGo]
    | succ fuel2 =>
      by_cases h10 : n < 10
      · simp [natStrGo, h10]
      · have hlt : n / 10 < n := Nat.div_lt_self (by omega) (by omega)
        rw [natStrGo, natStrGo, if_neg h10, if_neg h10,
          ih fuel2 (n / 10) (by omega) (by omega)]

theorem natStr_eq (n : Nat) :
    natStr n = (if n < 10 then [digitChar n] else natStr (n / 10) ++ [digitChar (n % 10)]) := by
  by_cases h10 : n < 10
  · rw [if_pos h10]
    cases n with
    | zero => rfl
    | succ m => simp [natStr, natStrGo, h10]
  · rw [if_neg h10]
    cases n with
    | zero => omega
    | succ m =>
      show natStrGo (m + 1) (m + 1) = _
      rw [natStrGo, if_neg h10]
      have hlt : (m + 1) / 10 < m + 1 := Nat.div_lt_self (by omega) (by omega)
      show _ = natStrGo ((m + 1) / 10) ((m + 1) / 10) ++ _
      rw [natStrGo_congr m ((m + 1) / 10) ((m + 1) / 10) (by omega) (le_refl _)]

theorem digitVal_digitChar (d : Nat) (h : d < 10) : digitVal (digitChar d) = d := by
  interval_cases d <;> rfl

theorem natStr_ne_nil (n : Nat) : natStr n ≠ [] := by
  rw [natStr_eq]
  split
  · simp
  · simp

theorem valOfDigits_append_digit (l : List Char) (c : Char) :
    valOfDigits (l ++ [c]) = 10 * valOfDigits l + digitVal c := by
  simp [valOfDigits, List.foldl_append]

theorem valOfDigits_natStr (n : Nat) : valOfDigits (natStr n) = n := by
  induction n using Nat.strong_induction_on with
  | _ n ih =>
    rw [natStr_eq]
    split
    · simp [valOfDigits, digitVal_digitChar, *]
    · rename_i h
      rw [valOfDigits_append_digit, ih (n / 10) (Nat.div_lt_self (by omega) (by omega)),
        digitVal_digitChar _ (Nat.mod_lt _ (by omega))]
      omega

theorem natStr_injective {a b : Nat} (h : natStr a = natStr b) : a = b := by
  have := congrArg valOfDigits h
  rwa [valOfDigits_natStr, valOfDigits_natStr] at this

theorem natStr_head_digit (n : Nat) : ∃ d t, d < 10 ∧ natStr n = digitChar d :: t := by
  induction n using Nat.strong_induction_on with
  | _ n ih =>
    rw [natStr_eq]
    split
    · exact ⟨n, [], by omega, rfl⟩
    · rename_i h
      obtain ⟨d, t, hd, ht⟩ := ih (n / 10) (Nat.div_lt_self (by omega) (by omega))
      exact ⟨d, t ++ [digitChar (n % 10)], hd, by rw [ht]; rfl⟩

theorem digitChar_ne_minus (d : Nat) (h : d < 10) : digitChar d ≠ '-' := by
  interval_cases d <;> decide

theorem intStr_injective {a b : Int} (h : intStr a = intStr b) : a = b := by
  cases a with
  | ofNat n =>
    cases b with
    | ofNat m => simpa [intStr] using natStr_injective h
    | negSucc m =>
      exfalso
      obtain ⟨d, t, hd, ht⟩ := natStr_head_digit n
      simp only [intStr, ht] at h
      exact digitChar_ne_minus d hd (by injection h)
  | negSucc n =>
    cases b with
    | ofNat m =>
      exfalso
      obtain ⟨d, t, hd, ht⟩ := natStr_head_digit m
      simp only [intStr, ht] at h
      exact digitChar_ne_minus d hd (by injection h with h1 _; exact h1.symm)
    | negSucc m =>
      simp only [intStr, List.cons.injEq, true_and] at h
      have h2 : n = m := by have := natStr_injective h; omega
      rw [h2]

/-!
Theorems: ApiIndex component (claims C7, C8, C9).
-/

theorem replaceFirst_eq_firstApiSplit (rep s : List Char) :
    replaceFirst slashApiSlashPat rep s =
      (match firstApiSplit s with
       | none => s
       | some p => p.1 ++ rep ++ p.2) := by
  induction s with
  | nil => rfl
  | cons c r ih =>
    by_cases h : List.isPrefixOf slashApiSlashPat (c :: r)
    · simp_all only [replaceFirst, firstApiSplit, slashApiSlashPat, List.isPrefixOf_iff_prefix,
        List.cons_prefix_cons]
      obtain ⟨h1, h2⟩ := h
      subst h1
      simp [h2]
    · simp only [replaceFirst, firstApiSplit, h, if_neg, if_false, Bool.false_eq_true]
      rw [ih]
      cases firstApiSplit r <;> simp

theorem replaceFirst_api_none (rep s : List Char) (hs : firstApiSplit s = none) :
    replaceFirst slashApiSlashPat rep s = s := by
  rw [replaceFirst_eq_firstApiSplit, hs]

theorem replaceFirst_api_some (rep s : List Char) (p : List Char × List Char)
    (hs : firstApiSplit s = some p) :
    replaceFirst slashApiSlashPat rep s = p.1 ++ rep ++ p.2 := by
  rw [replaceFirst_eq_firstApiSplit, hs]

theorem containsStr_cons (pat : List Char) (c : Char) (s : List Char)
    (h : containsStr pat s = true) : containsStr pat (c :: s) = true := by
  simp [containsStr, h]

theorem containsStr_self_append (pat y : List Char) (hne : pat ≠ []) :
    containsStr pat (pat ++ y) = true := by
  cases pat with
  | nil => exact absurd rfl hne
  | cons a as =>
    have : List.isPrefixOf (a :: as) ((a :: as) ++ y) = true := by
      simp [List.isPrefixOf_iff_prefix]
    simp [containsStr, this]

theorem containsStr_append_of (pat x s : List Char) (h : containsStr pat s = true) :
    containsStr pat (x ++ s) = true := by
  induction x with
  | nil => exact h
  | cons c r ih => exact containsStr_cons pat c (r ++ s) ih

theorem hasApiNum_cons (c : Char) (s : List Char) (h : hasApiNum s = true) :
    hasApiNum (c :: s) = true := by
  simp [hasApiNum, h]

theorem hasApiNum_here (c : Char) (t : List Char) (hc : digitDot c = true) :
    hasApiNum ('a' :: 'p' :: 'i' :: '/' :: c :: t) = true := by
  simp [hasApiNum, apiNumAt, hc]

theorem hasApiNum_append_of (x s : List Char) (h : hasApiNum s = true) :
    hasApiNum (x ++ s) = true := by
  induction x with
  | nil => exact h
  | cons c r ih => exact hasApiNum_cons c (r ++ s) ih

/-- C7: the claim-side description is refined by the code except on urls
with no `/api/` segment: there the claim prescribes an insertion that
cannot happen, while the code leaves the url unchanged.  Concrete input:
url `zz`, latest version `1`, preferred version `2`. -/
theorem c7_counterexample :
    addVersionToUrlClaim (("zz").toList) ⟨("1").toList⟩ (some ⟨("2").toList⟩)
      ≠ some (addVersionToUrl (("zz").toList) ⟨("1").toList⟩ (some ⟨("2").toList⟩)) := by
  decide

/-- C7 (amended): `addVersionToUrl` leaves already-versioned or `api/next`
urls untouched; otherwise, when a preferred version exists and differs
from the latest, it appends the effective version (current maps to next)
after a url ending in `/api`, inserts it into the first `/api/` segment
when one exists, and leaves urls without such a segment unchanged. -/
theorem c7_theorem (url : List Char) (latestVersion : PropVersionMetadata)
    (preferredVersion : Option GlobalVersion) :
    addVersionToUrl url latestVersion preferredVersion =
      addVersionToUrlSpec url latestVersion preferredVersion := by
  unfold addVersionToUrl addVersionToUrlSpec addVersionToUrlClaim
  cases preferredVersion with
  | none => cases h : (hasApiNum url || containsStr apiNextPat url) <;> simp [h]
  | some pv =>
    by_cases h1 : hasApiNum url = true
    · simp [h1]
    · by_cases h2 : containsStr apiNextPat url = true
      · simp [h1, h2]
      · by_cases h3 : pv.name = latestVersion.version
        · simp [h1, h2, h3]
        · by_cases h4 : List.isSuffixOf slashApiPat url = true
          · simp [h1, h2, h3, h4]
          · simp only [h1, h2, h3, h4, if_neg, Bool.false_eq_true, if_false,
              Bool.or_self, Option.getD]
            rw [replaceFirst_eq_firstApiSplit]
            cases hs : firstApiSplit url <;> simp [hs, List.append_assoc]

/-- C8: `addVersionToUrl` is not idempotent in general: with latest
version `1` and preferred version `beta`, the url `/api` maps to
`/api/beta`, which maps again to `/api/beta/beta`. -/
theorem c8_counterexample :
    addVersionToUrl
        (addVersionToUrl (("/api").toList) ⟨("1").toList⟩ (some ⟨("beta").toList⟩))
        ⟨("1").toList⟩ (some ⟨("beta").toList⟩)
      ≠ addVersionToUrl (("/api").toList) ⟨("1").toList⟩ (some ⟨("beta").toList⟩) := by
  decide

theorem addVersionToUrl_fixed_of_guard (url : List Char) (latestVersion : PropVersionMetadata)
    (pv : GlobalVersion)
    (h : hasApiNum url = true ∨ containsStr apiNextPat url = true) :
    addVersionToUrl url latestVersion (some pv) = url := by
  rcases h with h | h
  · simp [addVersionToUrl, h]
  · by_cases hx : hasApiNum url = true <;> simp [addVersionToUrl, hx, h]

theorem hasApiNum_insert (x v y : List Char) (c : Char) (t : List Char)
    (hv : v = c :: t) (hc : digitDot c = true) :
    hasApiNum (x ++ (slashApiSlashPat ++ (v ++ y))) = true := by
  subst hv
  have he : x ++ (slashApiSlashPat ++ ((c :: t) ++ y)) =
      (x ++ ['/']) ++ ('a' :: 'p' :: 'i' :: '/' :: c :: (t ++ y)) := by
    simp [slashApiSlashPat]
  rw [he]
  exact hasApiNum_append_of _ _ (hasApiNum_here c (t ++ y) hc)

theorem containsApiNext_insert (x v y : List Char) (hv : nextPat <+: v) :
    containsStr apiNextPat (x ++ (slashApiSlashPat ++ (v ++ y))) = true := by
  obtain ⟨w, hw⟩ := hv
  have he : x ++ (slashApiSlashPat ++ (v ++ y)) =
      (x ++ ['/']) ++ (apiNextPat ++ (w ++ y)) := by
    rw [← hw]
    simp [slashApiSlashPat, apiNextPat, nextPat]
  rw [he]
  exact containsStr_append_of _ _ _ (containsStr_self_append apiNextPat (w ++ y) (by decide))

/-- C8 (amended): `addVersionToUrl` is idempotent whenever the preferred
version is absent, equals the latest version, or has an effective name
(current maps to next) that starts with a digit, a dot, or `next`; for
other version names a second application inserts the segment again. -/
theorem c8_theorem (latestVersion : PropVersionMetadata)
    (preferredVersion : Option GlobalVersion)
    (hpref : IdempotentPref latestVersion preferredVersion) (url : List Char) :
    addVersionToUrl (addVersionToUrl url latestVersion preferredVersion)
        latestVersion preferredVersion
      = addVersionToUrl url latestVersion preferredVersion := by
  cases preferredVersion with
  | none => rfl
  | some pv =>
    by_cases h1 : hasApiNum url = true
    · have hfix : addVersionToUrl url latestVersion (some pv) = url := by
        simp [addVersionToUrl, h1]
      rw [hfix]
      exact hfix
    · by_cases h2 : containsStr apiNextPat url = true
      · have hfix : addVersionToUrl url latestVersion (some pv) = url := by
          simp [addVersionToUrl, h1, h2]
        rw [hfix]
        exact hfix
      · by_cases h3 : pv.name = latestVersion.version
        · have hfix : addVersionToUrl url latestVersion (some pv) = url := by
            simp [addVersionToUrl, h1, h2, h3]
          rw [hfix]
          exact hfix
        · have hv : (∃ c t, effVersion pv = c :: t ∧ digitDot c = true) ∨
              nextPat <+: effVersion pv := by
            rcases hpref with h | h | h
            · exact absurd h h3
            · exact Or.inl h
            · exact Or.inr h
          by_cases h4 : List.isSuffixOf slashApiPat url = true
          · have hout : addVersionToUrl url latestVersion (some pv) =
                url ++ '/' :: effVersion pv := by
              simp [addVersionToUrl, h1, h2, h3, h4]
            obtain ⟨U, hU⟩ : ∃ U, url = U ++ slashApiPat := by
              rw [List.isSuffixOf_iff_suffix] at h4
              obtain ⟨U, hU⟩ := h4
              exact ⟨U, hU.symm⟩
            have hshape : url ++ '/' :: effVersion pv =
                U ++ (slashApiSlashPat ++ (effVersion pv ++ [])) := by
              rw [hU]
              simp [slashApiPat, slashApiSlashPat]
            rw [hout, hshape]
            apply addVersionToUrl_fixed_of_guard
            rcases hv with ⟨c, t, hct, hc⟩ | hnext
            · exact Or.inl (hasApiNum_insert U _ [] c t hct hc)
            · exact Or.inr (containsApiNext_insert U _ [] hnext)
          · have hout : addVersionToUrl url latestVersion (some pv) =
                replaceFirst slashApiSlashPat
                  (slashApiSlashPat ++ effVersion pv ++ ['/']) url := by
              simp [addVersionToUrl, h1, h2, h3, h4]
            cases hs : firstApiSplit url with
            | none =>
              rw [hout, replaceFirst_api_none _ _ hs]
              exact hout.trans (replaceFirst_api_none _ _ hs)
            | some p =>
              rw [hout, replaceFirst_api_some _ _ p hs]
              have hshape : p.1 ++ (slashApiSlashPat ++ effVersion pv ++ ['/']) ++ p.2 =
                  p.1 ++ (slashApiSlashPat ++ (effVersion pv ++ ('/' :: p.2))) := by
                simp [List.append_assoc]
              rw [hshape]
              apply addVersionToUrl_fixed_of_guard
              rcases hv with ⟨c, t, hct, hc⟩ | hnext
              · exact Or.inl (hasApiNum_insert p.1 _ _ c t hct hc)
              · exact Or.inr (containsApiNext_insert p.1 _ _ hnext)

/-- C8 witness: latest version `1`, preferred version `2.0`, url `x/api`. -/
theorem c8_witness :
    IdempotentPref ⟨("1").toList⟩ (some ⟨("2.0").toList⟩) ∧
      addVersionToUrl
          (addVersionToUrl (("x/api").toList) ⟨("1").toList⟩ (some ⟨("2.0").toList⟩))
          ⟨("1").toList⟩ (some ⟨("2.0").toList⟩)
        = addVersionToUrl (("x/api").toList) ⟨("1").toList⟩ (some ⟨("2.0").toList⟩) :=
  ⟨Or.inr (Or.inl ⟨'2', (".0").toList, by decide, by decide⟩),
    c8_theorem ⟨("1").toList⟩ (some ⟨("2.0").toList⟩)
      (Or.inr (Or.inl ⟨'2', (".0").toList, by decide, by decide⟩)) (("x/api").toList)⟩

/-- C9: with exactly one package the effect redirects to the
version-adjusted permalink of that package's first entry point; with more
than one package it redirects to the version-adjusted current pathname
exactly when a preferred version exists. -/
theorem c9_theorem (p : PackageGroup) (e : EntryPoint) (es : List EntryPoint)
    (hp : p.entryPoints = e :: es) (pathname : List Char)
    (latestVersion : PropVersionMetadata) (preferredVersion : Option GlobalVersion)
    (packages : List PackageGroup) (hlen : 2 ≤ packages.length) :
    apiIndexRedirect [p] pathname latestVersion preferredVersion =
        Except.ok (some (addVersionToUrl e.reflection.permalink latestVersion preferredVersion))
      ∧ apiIndexRedirect packages pathname latestVersion preferredVersion =
          Except.ok
            (if preferredVersion.isSome then
              some (addVersionToUrl pathname latestVersion preferredVersion)
            else none) := by
  constructor
  · simp [apiIndexRedirect, hp]
  · match packages, hlen with
    | p1 :: p2 :: rest, _ =>
      by_cases hq : preferredVersion.isSome <;> simp [apiIndexRedirect, hq]

/-- C9 witness at a concrete package list, pathname and versions. -/
theorem c9_witness :
    apiIndexRedirect [⟨[⟨⟨("x/api/p").toList⟩⟩]⟩] (("pn").toList) ⟨("1").toList⟩ none =
        Except.ok (some (addVersionToUrl (("x/api/p").toList) ⟨("1").toList⟩ none))
      ∧ apiIndexRedirect [⟨[]⟩, ⟨[]⟩] (("pn").toList) ⟨("1").toList⟩ none =
          Except.ok
            (if (none : Option GlobalVersion).isSome then
              some (addVersionToUrl (("pn").toList) ⟨("1").toList⟩ none)
            else none) :=
  ⟨(c9_theorem ⟨[⟨⟨("x/api/p").toList⟩⟩]⟩ ⟨⟨("x/api/p").toList⟩⟩ [] rfl (("pn").toList)
      ⟨("1").toList⟩ none [⟨[]⟩, ⟨[]⟩] (by decide)).1,
    (c9_theorem ⟨[⟨⟨("x/api/p").toList⟩⟩]⟩ ⟨⟨("x/api/p").toList⟩⟩ [] rfl (("pn").toList)
      ⟨("1").toList⟩ none [⟨[]⟩, ⟨[]⟩] (by decide)).2⟩

/-!
Theorems: error handling of `processSection` (claim C3) and the
leading-newline requirement of the title pattern (claim C10).
-/

theorem processSection_titleless (st : ModState) (sec : List Char)
    (h : findTitle sec = none) : processSection st sec = Except.ok (none, st) := by
  simp [processSection, h]

/-- C3: an exception does escape `processSection` for some inputs: a
section whose `## Committers:` block contains a bullet line that does not
match the committer pattern makes the source throw a `TypeError` on
`.groups` of a null match. -/
theorem c3_counterexample :
    processSection initialState
        (("\n# [a](b) (c)\n## Committers: 1\n- x").toList) = Except.error () := by
  rfl

/-- C3 (amended): a titleless section is dropped (`processSection` returns
null, leaving the state untouched) without raising an error, and empty
input yields an empty output set rather than an error; however an
exception can escape `processSection` when a committers block contains a
non-matching bullet line. -/
theorem c3_theorem :
    (∀ (st : ModState) (sec : List Char), findTitle sec = none →
        processSection st sec = Except.ok (none, st)) ∧
      (∀ st : ModState, changelogPipeline st [] = Except.ok (st, [])) := by
  constructor
  · intro st sec h
    simp [processSection, h]
  · intro st
    rfl

/-- C3 witness: a concrete titleless section and the empty changelog. -/
theorem c3_witness :
    processSection initialState (("abc").toList) = Except.ok (none, initialState) ∧
      changelogPipeline initialState [] = Except.ok (initialState, []) :=
  ⟨c3_theorem.1 initialState (("abc").toList) (by rfl), c3_theorem.2 initialState⟩

theorem findTitle_none_of (s : List Char)
    (h : ∀ u1 u2, s = u1 ++ '\n' :: u2 → u2 = [] ∨ ∃ c w, u2 = c :: w ∧ c ≠ '#') :
    findTitle s = none := by
  induction s with
  | nil => rfl
  | cons c r ih =>
    have hm : matchTitleAt (c :: r) = none := by
      by_cases hc : c = '\n'
      · subst hc
        rcases h [] r rfl with hr | ⟨c', w, hw, hcw⟩
        · subst hr
          rfl
        · subst hw
          have hrun : hashRun (c' :: w) = (0, c' :: w) := by
            simp [hashRun, hcw]
          simp [matchTitleAt, hrun]
      · simp [matchTitleAt, hc]
    have hr : findTitle r = none := ih (fun u1 u2 hu => h (c :: u1) u2 (by rw [hu]; rfl))
    simp [findTitle, hm, hr]

theorem newline_split_in_tail (A body u1 u2 : List Char) (hA : '\n' ∉ A)
    (h : A ++ body = u1 ++ '\n' :: u2) : ∃ b1, body = b1 ++ '\n' :: u2 := by
  rcases List.append_eq_append_iff.mp h with ⟨a', _, ha2⟩ | ⟨c', hc1, hc2⟩
  · exact ⟨a', ha2⟩
  · cases c' with
    | nil =>
      refine ⟨[], ?_⟩
      simpa using hc2.symm
    | cons x c'' =>
      exfalso
      apply hA
      have hx : x = '\n' := by
        injection hc2 with h1 _
        exact h1.symm
      rw [hc1, hx]
      simp

theorem headingCore_no_newline (k : Nat) (v l d : List Char)
    (hv : '\n' ∉ v) (hl : '\n' ∉ l) (hd : '\n' ∉ d) :
    '\n' ∉ headingCore k v l d := by
  intro hmem
  simp only [headingCore, List.mem_append, List.mem_cons, List.mem_replicate,
    List.mem_singleton] at hmem
  rcases hmem with ⟨_, h⟩ | h | h | h | h | h | h | h | h | h | h
  all_goals simp_all

/-- C10: a section whose (well-formed) title heading starts the section
with no preceding newline, and whose body has no `#` at all, is rejected:
`processSection` returns null, because the title regex demands a newline
before the hashes. -/
theorem c10_theorem (st : ModState) (r : Release)
    (_h1 : 1 ≤ r.hashes) (_h3 : r.hashes ≤ 3)
    (hv : '\n' ∉ r.version) (hl : '\n' ∉ r.link) (hd : '\n' ∉ r.date)
    (hb : '#' ∉ r.body) :
    processSection st (renderSectionNoNewline r) = Except.ok (none, st) := by
  apply processSection_titleless
  apply findTitle_none_of
  intro u1 u2 hu
  obtain ⟨b1, hb1⟩ := newline_split_in_tail (headingCore r.hashes r.version r.link r.date)
    r.body u1 u2 (headingCore_no_newline _ _ _ _ hv hl hd) hu
  cases u2 with
  | nil => exact Or.inl rfl
  | cons c w =>
    refine Or.inr ⟨c, w, rfl, fun hc => hb ?_⟩
    subst hc
    rw [hb1]
    simp

/-- C10 witness: the heading `# [a](b) (c)` at the very start of a
section, followed by a hash-free body. -/
theorem c10_witness :
    (1 ≤ (1 : Nat) ∧ (1 : Nat) ≤ 3 ∧ '\n' ∉ (("a").toList) ∧ '\n' ∉ (("b").toList) ∧
        '\n' ∉ (("c").toList) ∧ '#' ∉ (("\nbody").toList)) ∧
      processSection initialState
          (renderSectionNoNewline ⟨1, ("a").toList, ("b").toList, ("c").toList,
            ("\nbody").toList⟩) = Except.ok (none, initialState) :=
  ⟨by decide,
    c10_theorem initialState ⟨1, ("a").toList, ("b").toList, ("c").toList, ("\nbody").toList⟩
      (by decide) (by decide) (by decide) (by decide) (by decide) (by decide)⟩

theorem pairSP_of_no_paren (s : List Char) (h : '(' ∉ s) : pairSP s = false := by
  induction s with
  | nil => rfl
  | cons c r ih =>
    have hcond : ¬ (c = ' ' ∧ List.isPrefixOf ['('] r) := by
      rintro ⟨-, hpre⟩
      cases r with
      | nil => simp [List.isPrefixOf] at hpre
      | cons d r' =>
        rw [List.isPrefixOf_iff_prefix, List.cons_prefix_cons] at hpre
        exact h (by simp [hpre.1.symm])
    rw [pairSP, if_neg hcond]
    exact ih (fun hm => h (List.mem_cons_of_mem c hm))

theorem pairSP_append_noSpace (a w : List Char) (ha : ' ' ∉ a) (hw : pairSP w = false) :
    pairSP (a ++ w) = false := by
  induction a with
  | nil => exact hw
  | cons c a' ih =>
    have hc : ¬ (c = ' ' ∧ List.isPrefixOf ['('] (a' ++ w)) := by
      rintro ⟨hc, -⟩
      exact ha (by simp [hc])
    rw [List.cons_append, pairSP, if_neg hc]
    exact ih (fun hm => ha (List.mem_cons_of_mem c hm))

theorem pairBP_of_no_bracket (s : List Char) (h : ']' ∉ s) : pairBP s = false := by
  induction s with
  | nil => rfl
  | cons c r ih =>
    have hcond : ¬ (c = ']' ∧ List.isPrefixOf ['('] r) := by
      rintro ⟨hc, -⟩
      exact h (by simp [hc])
    rw [pairBP, if_neg hcond]
    exact ih (fun hm => h (List.mem_cons_of_mem c hm))

theorem nameSearch_eq_none (s : List Char) (h : pairSP s = false) : nameSearch s = none := by
  induction s with
  | nil => rfl
  | cons c r ih =>
    by_cases hc : c = '\n'
    · simp [nameSearch, hc]
    · have hcond : ¬ (c = ' ' ∧ List.isPrefixOf ['('] r) := by
        intro hx
        rw [pairSP, if_pos hx] at h
        exact Bool.true_eq_false.mp h
      have hcond2 : ¬ (c = ' ' ∧ ['('] <+: r) := by
        simpa [List.isPrefixOf_iff_prefix] using hcond
      have hr : pairSP r = false := by
        rwa [pairSP, if_neg hcond] at h
      simp [nameSearch, hc, hcond, hcond2, ih hr]

theorem aliasGreedy_eq_none (s : List Char) (h : pairBP s = false) : aliasGreedy s = none := by
  induction s with
  | nil => rfl
  | cons c r ih =>
    by_cases hc : c = '\n'
    · simp [aliasGreedy, hc]
    · have hcond : ¬ (c = ']' ∧ List.isPrefixOf ['('] r) := by
        intro hx
        rw [pairBP, if_pos hx] at h
        exact Bool.true_eq_false.mp h
      have hcond2 : ¬ (c = ']' ∧ ['('] <+: r) := by
        simpa [List.isPrefixOf_iff_prefix] using hcond
      have hr : pairBP r = false := by
        rwa [pairBP, if_neg hcond] at h
      simp [aliasGreedy, hc, hcond, hcond2, ih hr]

theorem lazyClose_shape (u rest : List Char) (hu : ')' ∉ u) (hu2 : '\n' ∉ u) :
    lazyClose (u ++ ')' :: rest) = some (u, rest) := by
  induction u with
  | nil => simp [lazyClose]
  | cons c u' ih =>
    have hc1 : c ≠ ')' := fun hc => hu (by simp [hc])
    have hc2 : c ≠ '\n' := fun hc => hu2 (by simp [hc])
    rw [List.cons_append, lazyClose]
    rw [if_neg hc1, if_neg hc2,
      ih (fun hm => hu (List.mem_cons_of_mem c hm)) (fun hm => hu2 (List.mem_cons_of_mem c hm))]
    rfl

theorem aliasGreedy_shape (a u rest : List Char)
    (ha2 : ']' ∉ a) (ha3 : '\n' ∉ a) (hu1 : ')' ∉ u) (hu4 : '\n' ∉ u)
    (hBP : pairBP ('(' :: (u ++ ')' :: rest)) = false) :
    aliasGreedy (a ++ (']' :: '(' :: (u ++ ')' :: rest))) = some (a, u, rest) := by
  induction a with
  | nil =>
    rw [List.nil_append, aliasGreedy]
    rw [if_neg (by decide : ¬ (']' : Char) = '\n'),
      aliasGreedy_eq_none _ hBP]
    simp [lazyClose_shape u rest hu1 hu4]
  | cons c a' ih =>
    have hc : c ≠ '\n' := fun hc => ha3 (by simp [hc])
    rw [List.cons_append, aliasGreedy, if_neg hc,
      ih (fun hm => ha2 (List.mem_cons_of_mem c hm)) (fun hm => ha3 (List.mem_cons_of_mem c hm))]

theorem tryBracket_shape (Y : List Char) :
    tryBracket ('[' :: '@' :: Y) = aliasGreedy Y := by
  have hpre : List.isPrefixOf ['[', '@'] ('[' :: '@' :: Y) = true := by
    simp [List.isPrefixOf_iff_prefix, List.cons_prefix_cons]
  simp [tryBracket, hpre]

theorem nameSearch_shape (n w : List Char) (tb : List Char × (List Char × List Char))
    (hn1 : '(' ∉ n) (hn2 : '\n' ∉ n) (hw : tryBracket w = some tb) :
    nameSearch (n ++ (' ' :: '(' :: w)) = some (n, tb) := by
  induction n with
  | nil =>
    rw [List.nil_append, nameSearch]
    rw [if_neg (by decide : ¬ (' ' : Char) = '\n')]
    have hcond : (' ' = ' ' ∧ List.isPrefixOf ['('] ('(' :: w)) := by
      refine ⟨rfl, ?_⟩
      simp [List.isPrefixOf_iff_prefix, List.cons_prefix_cons]
    rw [if_pos hcond]
    simp [hw]
  | cons c n' ih =>
    have hc : c ≠ '\n' := fun hc => hn2 (by simp [hc])
    have hcond : ¬ (c = ' ' ∧ List.isPrefixOf ['('] (n' ++ (' ' :: '(' :: w))) := by
      rintro ⟨hcs, hpre⟩
      rw [List.isPrefixOf_iff_prefix] at hpre
      obtain ⟨t, ht⟩ := hpre
      cases n' with
      | nil =>
        rw [List.nil_append] at ht
        injection ht with h1 _
        exact absurd h1 (by decide)
      | cons d n'' =>
        rw [List.cons_append] at ht
        injection ht with h1 _
        exact hn1 (by rw [h1]; simp)
    rw [List.cons_append, nameSearch, if_neg hc, if_neg hcond,
      ih (fun hm => hn1 (List.mem_cons_of_mem c hm)) (fun hm => hn2 (List.mem_cons_of_mem c hm))]
    rfl

/-- C4: the two bullet-line forms the claim names are both rejected by the
committer pattern (the regex demands a literal `[@`, and the display-name
form demands ` (` before it): the match is null, so the code throws; a
whole section with such a line makes `processSection` throw. -/
theorem c4_counterexample :
    execCommitter (("- [Alias](url)").toList) = none ∧
      execCommitter (("- Name [@Alias](url)").toList) = none ∧
      processSection initialState
          (("\n# [v](l) (d)\n## Committers: 1\n- [Alias](url)").toList) = Except.error () :=
  ⟨rfl, rfl, rfl⟩

/-- C4 (amended): a bullet line `- [@Alias](url)` (no display name) parses
to a committer whose name equals its alias, and `- Name ([@Alias](url))`
parses to a committer with the supplied display name, for every alias
without space, `]` or newline, every url without parentheses, `]` or
newline, and every display name without `(` or newline. -/
theorem c4_theorem (n a u : List Char)
    (ha1 : ' ' ∉ a) (ha2 : ']' ∉ a) (ha3 : '\n' ∉ a)
    (hu1 : ')' ∉ u) (hu2 : '(' ∉ u) (hu3 : ']' ∉ u) (hu4 : '\n' ∉ u)
    (hn1 : '(' ∉ n) (hn2 : '\n' ∉ n) :
    (execCommitter (committerLine1 a u)).map mkAuthor =
        some { name := a, alias' := a, url := u,
               imageURL := ("https://github.com/").toList ++ a ++ (".png").toList } ∧
      (execCommitter (committerLine2 n a u)).map mkAuthor =
        some { name := n, alias' := a, url := u,
               imageURL := ("https://github.com/").toList ++ a ++ (".png").toList } := by
  have hBP : pairBP ('(' :: (u ++ ')' :: [])) = false := by
    apply pairBP_of_no_bracket
    intro hm
    rcases List.mem_cons.mp hm with hm | hm
    · exact absurd hm.symm (by decide)
    · rcases List.mem_append.mp hm with hm | hm
      · exact hu3 hm
      · simp at hm
  have hBP2 : pairBP ('(' :: (u ++ ')' :: [')'])) = false := by
    apply pairBP_of_no_bracket
    intro hm
    rcases List.mem_cons.mp hm with hm | hm
    · exact absurd hm.symm (by decide)
    · rcases List.mem_append.mp hm with hm | hm
      · exact hu3 hm
      · simp at hm
  have hag1 : aliasGreedy (a ++ (']' :: '(' :: (u ++ ')' :: []))) = some (a, u, []) :=
    aliasGreedy_shape a u [] ha2 ha3 hu1 hu4 hBP
  have hag2 : aliasGreedy (a ++ (']' :: '(' :: (u ++ ')' :: [')']))) = some (a, u, [')']) :=
    aliasGreedy_shape a u [')'] ha2 ha3 hu1 hu4 hBP2
  constructor
  · have hSP : pairSP ('[' :: '@' :: (a ++ (']' :: '(' :: (u ++ [')'])))) = false := by
      have := pairSP_append_noSpace ('[' :: '@' :: a) (']' :: '(' :: (u ++ [')']))
        (by
          intro hm
          rcases List.mem_cons.mp hm with hm | hm
          · exact absurd hm.symm (by decide)
          · rcases List.mem_cons.mp hm with hm | hm
            · exact absurd hm.symm (by decide)
            · exact ha1 hm)
        (by
          rw [pairSP, if_neg (by rintro ⟨h, -⟩; exact absurd h (by decide))]
          rw [pairSP, if_neg (by rintro ⟨h, -⟩; exact absurd h (by decide))]
          apply pairSP_of_no_paren
          intro hm
          rcases List.mem_append.mp hm with hm | hm
          · exact hu2 hm
          · simp at hm)
      simpa using this
    have hns : nameSearch ('[' :: '@' :: (a ++ (']' :: '(' :: (u ++ [')'])))) = none :=
      nameSearch_eq_none _ hSP
    have htb : tryBracket ('[' :: '@' :: (a ++ (']' :: '(' :: (u ++ [')'])))) =
        some (a, u, []) := by
      rw [tryBracket_shape]
      exact hag1
    have hpc : parseCommitterAt (committerLine1 a u) = some (none, a, u) := by
      have hpre : List.isPrefixOf ['-', ' '] (committerLine1 a u) = true := by
        simp [committerLine1, List.isPrefixOf_iff_prefix, List.cons_prefix_cons]
      rw [parseCommitterAt, if_pos hpre]
      have hd : (committerLine1 a u).drop 2 =
          '[' :: '@' :: (a ++ (']' :: '(' :: (u ++ [')']))) := rfl
      rw [hd, hns, htb]
      rfl
    have hexec : execCommitter (committerLine1 a u) = some (none, a, u) := by
      have hu1 : execCommitter (committerLine1 a u) =
          match parseCommitterAt (committerLine1 a u) with
          | some g => some g
          | none => execCommitter (' ' :: '[' :: '@' :: (a ++ (']' :: '(' :: (u ++ [')'])))) := rfl
      rw [hu1, hpc]
    rw [hexec]
    simp [mkAuthor]
  · have htb2 : tryBracket ('[' :: '@' :: (a ++ (']' :: '(' :: (u ++ [')', ')'])))) =
        some (a, u, [')']) := by
      rw [tryBracket_shape]
      exact hag2
    have hns2 : nameSearch (n ++ (' ' :: '(' :: ('[' :: '@' :: (a ++ (']' :: '(' :: (u ++ [')', ')'])))))) =
        some (n, a, u, [')']) :=
      nameSearch_shape n _ (a, u, [')']) hn1 hn2 htb2
    have hpc2 : parseCommitterAt (committerLine2 n a u) = some (some n, a, u) := by
      have hpre : List.isPrefixOf ['-', ' '] (committerLine2 n a u) = true := by
        simp [committerLine2, List.isPrefixOf_iff_prefix, List.cons_prefix_cons]
      rw [parseCommitterAt, if_pos hpre]
      have hd : (committerLine2 n a u).drop 2 =
          n ++ (' ' :: '(' :: ('[' :: '@' :: (a ++ (']' :: '(' :: (u ++ [')', ')']))))) := rfl
      rw [hd, hns2]
    have hexec2 : execCommitter (committerLine2 n a u) = some (some n, a, u) := by
      have hu2 : execCommitter (committerLine2 n a u) =
          match parseCommitterAt (committerLine2 n a u) with
          | some g => some g
          | none =>
            execCommitter
              (' ' :: (n ++ (' ' :: '(' :: '[' :: '@' :: (a ++ (']' :: '(' :: (u ++ [')', ')'])))))) := rfl
      rw [hu2, hpc2]
    rw [hexec2]
    simp [mkAuthor]

/-- C4 witness: alias `jo`, url `u`, display name `Jo Z`. -/
theorem c4_witness :
    (execCommitter (committerLine1 (("jo").toList) (("u").toList))).map mkAuthor =
        some { name := ("jo").toList, alias' := ("jo").toList, url := ("u").toList,
               imageURL := ("https://github.com/").toList ++ ("jo").toList ++ (".png").toList } ∧
      (execCommitter (committerLine2 (("Jo Z").toList) (("jo").toList) (("u").toList))).map mkAuthor =
        some { name := ("Jo Z").toList, alias' := ("jo").toList, url := ("u").toList,
               imageURL := ("https://github.com/").toList ++ ("jo").toList ++ (".png").toList } := by
  have h := c4_theorem (("Jo Z").toList) (("jo").toList) (("u").toList)
    (by decide) (by decide) (by decide) (by decide) (by decide) (by decide) (by decide)
    (by decide) (by decide)
  exact ⟨h.1, h.2⟩

/-!
Theorems: the author registry (claims C5 and C6).
-/

theorem lookupKey_setKey_self (m : List (List Char × Author)) (k : List Char) (v : Author) :
    lookupKey (setKey m k v) k = some v := by
  induction m with
  | nil => simp [setKey, lookupKey]
  | cons p m' ih =>
    obtain ⟨k0, v0⟩ := p
    by_cases h : k0 = k
    · simp [setKey, lookupKey, h]
    · simp [setKey, lookupKey, h, ih]

theorem lookupKey_setKey_other (m : List (List Char × Author)) (k k' : List Char) (v : Author)
    (h : k' ≠ k) : lookupKey (setKey m k v) k' = lookupKey m k' := by
  have hkk : ¬ k = k' := fun he => h he.symm
  induction m with
  | nil =>
    simp only [setKey, lookupKey]
    rw [if_neg hkk]
  | cons p m' ih =>
    obtain ⟨k0, v0⟩ := p
    by_cases hk : k0 = k
    · subst hk
      simp only [setKey, if_pos rfl, lookupKey]
      rw [if_neg hkk, if_neg hkk]
    · simp only [setKey, if_neg hk, lookupKey]
      rw [ih]

theorem lookupKey_foldl_setKey_notmem (l : List Author) (m : List (List Char × Author))
    (a : List Char) (h : ∀ x ∈ l, x.alias' ≠ a) :
    lookupKey (l.foldl (fun m x => setKey m x.alias' x) m) a = lookupKey m a := by
  induction l generalizing m with
  | nil => rfl
  | cons x l' ih =>
    rw [List.foldl_cons, ih _ (fun y hy => h y (List.mem_cons_of_mem x hy)),
      lookupKey_setKey_other _ _ _ _ (fun he => h x (List.mem_cons_self x l') he.symm)]

theorem lookupKey_foldl_setKey_last (l1 l2 : List Author) (e : Author)
    (m : List (List Char × Author)) (a : List Char)
    (he : e.alias' = a) (h2 : ∀ x ∈ l2, x.alias' ≠ a) :
    lookupKey ((l1 ++ e :: l2).foldl (fun m x => setKey m x.alias' x) m) a = some e := by
  rw [List.foldl_append, List.foldl_cons, lookupKey_foldl_setKey_notmem l2 _ a h2, ← he,
    lookupKey_setKey_self]

theorem lookupKey_setKey_isSome (m : List (List Char × Author)) (k a : List Char) (v : Author)
    (h : (lookupKey m a).isSome) : (lookupKey (setKey m k v) a).isSome := by
  by_cases hk : a = k
  · subst hk
    rw [lookupKey_setKey_self]
    rfl
  · rwa [lookupKey_setKey_other _ _ _ _ hk]

theorem lookupKey_foldl_setKey_isSome (l : List Author) (m : List (List Char × Author))
    (a : List Char) (h : (lookupKey m a).isSome) :
    (lookupKey (l.foldl (fun m x => setKey m x.alias' x) m) a).isSome := by
  induction l generalizing m with
  | nil => exact h
  | cons x l' ih => exact ih _ (lookupKey_setKey_isSome _ _ _ _ h)

theorem setKey_keys (m : List (List Char × Author)) (k : List Char) (v : Author) :
    (setKey m k v).map Prod.fst =
      (if k ∈ m.map Prod.fst then m.map Prod.fst else m.map Prod.fst ++ [k]) := by
  induction m with
  | nil => simp [setKey]
  | cons p m' ih =>
    obtain ⟨k0, v0⟩ := p
    by_cases h : k0 = k
    · subst h
      simp [setKey]
    · have hne : ¬ k = k0 := fun he => h he.symm
      by_cases hm : k ∈ m'.map Prod.fst
      · simp [setKey, h, ih, hm, hne]
      · simp [setKey, h, ih, hm, hne]

theorem setKey_keysNodup (m : List (List Char × Author)) (k : List Char) (v : Author)
    (h : KeysNodup m) : KeysNodup (setKey m k v) := by
  unfold KeysNodup at *
  rw [setKey_keys]
  by_cases hm : k ∈ m.map Prod.fst
  · rwa [if_pos hm]
  · rw [if_neg hm]
    refine List.nodup_append.mpr ⟨h, List.nodup_singleton k, ?_⟩
    intro x hx hxk
    rw [List.mem_singleton] at hxk
    subst hxk
    exact hm hx

theorem foldl_setKey_keysNodup (l : List Author) (m : List (List Char × Author))
    (h : KeysNodup m) :
    KeysNodup (l.foldl (fun m x => setKey m x.alias' x) m) := by
  induction l generalizing m with
  | nil => exact h
  | cons x l' ih => exact ih _ (setKey_keysNodup _ _ _ h)

/-- What `processSection` does to the author registry, in terms of
`sectionCommitters`. -/
theorem processSection_amap (st : ModState) (sec : List Char) (od : Option Doc) (st' : ModState)
    (h : processSection st sec = .ok (od, st')) :
    (sectionCommitters sec = .ok none ∧ st'.authorsMap = st.authorsMap) ∨
      ∃ l, sectionCommitters sec = .ok (some l) ∧
        st'.authorsMap = l.foldl (fun m x => setKey m x.alias' x) st.authorsMap := by
  cases hft : findTitle sec with
  | none =>
    have hps : processSection st sec = .ok (none, st) := by
      simp [processSection, hft]
    rw [hps] at h
    injection h with h1
    injection h1 with _ h2
    exact Or.inl ⟨by simp [sectionCommitters, hft], by rw [← h2]⟩
  | some tm =>
    cases hsa : sectionAuthors (sectionContent tm sec) with
    | error e =>
      have hps : processSection st sec = .error e := by
        simp [processSection, hft, hsa]
      rw [hps] at h
      exact absurd h (by simp)
    | ok authorsOpt =>
      have hps : processSection st sec =
          .ok (some (sectionDoc st tm (sectionContent tm sec) authorsOpt),
            sectionState st tm authorsOpt) := by
        simp [processSection, hft, hsa]
      rw [hps] at h
      injection h with h1
      injection h1 with _ h2
      cases authorsOpt with
      | none =>
        exact Or.inl ⟨by simp [sectionCommitters, hft, hsa], by rw [← h2]; rfl⟩
      | some l =>
        exact Or.inr ⟨l, by simp [sectionCommitters, hft, hsa], by rw [← h2]; rfl⟩

theorem processSection_keysNodup (st : ModState) (sec : List Char) (od : Option Doc)
    (st' : ModState) (h : processSection st sec = .ok (od, st'))
    (hn : KeysNodup st.authorsMap) : KeysNodup st'.authorsMap := by
  rcases processSection_amap st sec od st' h with ⟨-, heq⟩ | ⟨l, -, heq⟩
  · rwa [heq]
  · rw [heq]
    exact foldl_setKey_keysNodup l _ hn

theorem processSection_key_isSome (st : ModState) (sec : List Char) (od : Option Doc)
    (st' : ModState) (h : processSection st sec = .ok (od, st')) (a : List Char)
    (hs : (lookupKey st.authorsMap a).isSome) : (lookupKey st'.authorsMap a).isSome := by
  rcases processSection_amap st sec od st' h with ⟨-, heq⟩ | ⟨l, -, heq⟩
  · rwa [heq]
  · rw [heq]
    exact lookupKey_foldl_setKey_isSome l _ a hs

theorem processSection_lookup_preserved (st : ModState) (sec : List Char) (od : Option Doc)
    (st' : ModState) (h : processSection st sec = .ok (od, st')) (a : List Char)
    (hna : a ∉ sectionAliases sec) :
    lookupKey st'.authorsMap a = lookupKey st.authorsMap a := by
  rcases processSection_amap st sec od st' h with ⟨-, heq⟩ | ⟨l, hl, heq⟩
  · rw [heq]
  · rw [heq]
    apply lookupKey_foldl_setKey_notmem
    intro x hx hxa
    apply hna
    simp only [sectionAliases, hl]
    exact List.mem_map.mpr ⟨x, hx, hxa⟩

theorem processSection_lookup_last (st : ModState) (sec : List Char) (od : Option Doc)
    (st' : ModState) (a : List Char) (e : Author) (l1 l2 : List Author)
    (h : processSection st sec = .ok (od, st'))
    (hys : sectionCommitters sec = .ok (some (l1 ++ e :: l2)))
    (he : e.alias' = a) (h2 : ∀ x ∈ l2, x.alias' ≠ a) :
    lookupKey st'.authorsMap a = some e := by
  rcases processSection_amap st sec od st' h with ⟨hnone, -⟩ | ⟨l, hl, heq⟩
  · rw [hys] at hnone
    exact absurd hnone (by simp)
  · rw [hys] at hl
    injection hl with hl1
    injection hl1 with hl2
    rw [heq, ← hl2]
    exact lookupKey_foldl_setKey_last l1 l2 e _ a he h2

theorem runSections_cons (st : ModState) (sec : List Char) (rest : List (List Char)) :
    runSections st (sec :: rest) =
      (match processSection st sec with
       | Except.error e => Except.error e
       | Except.ok p =>
         match runSections p.2 rest with
         | Except.error e => Except.error e
         | Except.ok q =>
           Except.ok (q.1, match p.1 with | none => q.2 | some d => d :: q.2)) := by
  show (match processSection st sec with
        | Except.error e => Except.error e
        | Except.ok (od, st1) =>
          match runSections st1 rest with
          | Except.error e => Except.error e
          | Except.ok (st2, docs) =>
            Except.ok (st2, match od with | none => docs | some d => d :: docs)) = _
  cases processSection st sec with
  | error e => rfl
  | ok p =>
    obtain ⟨od, st1⟩ := p
    show (match runSections st1 rest with
          | Except.error e => Except.error e
          | Except.ok (st2, docs) =>
            Except.ok (st2, match od with | none => docs | some d => d :: docs)) =
        (match runSections st1 rest with
         | Except.error e => Except.error e
         | Except.ok q =>
           Except.ok (q.1, match od with | none => q.2 | some d => d :: q.2))
    cases runSections st1 rest with
    | error e => rfl
    | ok q =>
      obtain ⟨st2, docs⟩ := q
      rfl

theorem runState_cons (st : ModState) (sec : List Char) (rest : List (List Char)) :
    runState st (sec :: rest) =
      (match processSection st sec with
       | .error e => .error e
       | .ok p => runState p.2 rest) := by
  show (runSections st (sec :: rest)).map (fun p => p.1) = _
  rw [runSections_cons]
  cases processSection st sec with
  | error e => rfl
  | ok p =>
    show (match runSections p.2 rest with
          | Except.error e => Except.error e
          | Except.ok q =>
            Except.ok (q.1, match p.1 with | none => q.2 | some d => d :: q.2)).map
        (fun (x : ModState × List Doc) => x.1) =
      (runSections p.2 rest).map (fun (x : ModState × List Doc) => x.1)
    cases runSections p.2 rest with
    | error e => rfl
    | ok q => rfl

theorem runState_nil (st : ModState) : runState st [] = .ok st := rfl

theorem runState_append (st : ModState) (l1 l2 : List (List Char)) :
    runState st (l1 ++ l2) = (runState st l1).bind (fun s => runState s l2) := by
  induction l1 generalizing st with
  | nil => rfl
  | cons sec l1' ih =>
    rw [List.cons_append, runState_cons, runState_cons]
    cases processSection st sec with
    | error e => rfl
    | ok p => exact ih p.2

theorem runState_keysNodup (secs : List (List Char)) (st st' : ModState)
    (h : runState st secs = .ok st') (hn : KeysNodup st.authorsMap) :
    KeysNodup st'.authorsMap := by
  induction secs generalizing st with
  | nil =>
    injection h with h1
    rwa [← h1]
  | cons sec rest ih =>
    rw [runState_cons] at h
    cases hp : processSection st sec with
    | error e =>
      rw [hp] at h
      exact absurd h (by simp)
    | ok p =>
      rw [hp] at h
      exact ih p.2 h (processSection_keysNodup st sec p.1 p.2 hp hn)

theorem runState_key_isSome (secs : List (List Char)) (st st' : ModState)
    (h : runState st secs = .ok st') (a : List Char)
    (hs : (lookupKey st.authorsMap a).isSome) : (lookupKey st'.authorsMap a).isSome := by
  induction secs generalizing st with
  | nil =>
    injection h with h1
    rwa [← h1]
  | cons sec rest ih =>
    rw [runState_cons] at h
    cases hp : processSection st sec with
    | error e =>
      rw [hp] at h
      exact absurd h (by simp)
    | ok p =>
      rw [hp] at h
      exact ih p.2 h (processSection_key_isSome st sec p.1 p.2 hp a hs)

theorem runState_lookup_preserved (secs : List (List Char)) (st st' : ModState)
    (h : runState st secs = .ok st') (a : List Char)
    (hall : ∀ sec ∈ secs, a ∉ sectionAliases sec) :
    lookupKey st'.authorsMap a = lookupKey st.authorsMap a := by
  induction secs generalizing st with
  | nil =>
    injection h with h1
    rw [← h1]
  | cons sec rest ih =>
    rw [runState_cons] at h
    cases hp : processSection st sec with
    | error e =>
      rw [hp] at h
      exact absurd h (by simp)
    | ok p =>
      rw [hp] at h
      rw [ih p.2 h (fun s hs => hall s (List.mem_cons_of_mem sec hs)),
        processSection_lookup_preserved st sec p.1 p.2 hp a (hall sec (List.mem_cons_self sec rest))]

theorem pipelineState_eq_runState (st : ModState) (t : List Char) :
    pipelineState st t = runState st (splitSections (sanitize t)) := rfl

/-- C6: the registry is not reset between invocations; aliases present
after one invocation are still present after any later invocation. -/
theorem c6_theorem (st : ModState) (t1 : List Char) (s1 : ModState)
    (_h1 : pipelineState st t1 = .ok s1) (a : List Char)
    (hw : (lookupKey s1.authorsMap a).isSome) (t2 : List Char) (s2 : ModState)
    (h2 : pipelineState s1 t2 = .ok s2) :
    (lookupKey s2.authorsMap a).isSome := by
  rw [pipelineState_eq_runState] at h2
  exact runState_key_isSome _ s1 s2 h2 a hw

/-- C6: entries from one invocation do appear in the registry persisted by
a later invocation: the module-level `authorsMap` is never reset.  A first
changelog credits `bob`; a second changelog that never mentions `bob`
still ends with `bob` in the registry it persists. -/
theorem c6_counterexample :
    pipelineState initialState
        (("\n# [a](b) (c)\n## Committers: 1\n- [@bob](u)").toList) = Except.ok c6State1 ∧
      pipelineState c6State1 (("\n# [d](e) (f)\nhello").toList) = Except.ok c6State2 ∧
      lookupKey c6State2.authorsMap (("bob").toList) = some bobAuthor :=
  ⟨rfl, rfl, rfl⟩

/-- C6 witness: the two concrete invocations above. -/
theorem c6_witness :
    (lookupKey c6State2.authorsMap (("bob").toList)).isSome :=
  c6_theorem initialState (("\n# [a](b) (c)\n## Committers: 1\n- [@bob](u)").toList) c6State1
    rfl (("bob").toList) rfl (("\n# [d](e) (f)\nhello").toList) c6State2 rfl

/-- C5: after a run over `pre ++ y :: post` in which section `y` credits
alias `a` last as committer `e` (no later committer of `y` and no section
of `post` mentions `a`), the final registry maps `a` to exactly `e`, and
the registry keeps one entry per alias (key nodup is preserved). -/
theorem c5_theorem (s0 : ModState) (pre post : List (List Char)) (y : List Char)
    (sf : ModState) (hrun : runState s0 (pre ++ y :: post) = .ok sf)
    (a : List Char) (e : Author) (l1 l2 : List Author)
    (hy : sectionCommitters y = .ok (some (l1 ++ e :: l2)))
    (he : e.alias' = a) (hl2 : ∀ x ∈ l2, x.alias' ≠ a)
    (hpost : ∀ sec ∈ post, a ∉ sectionAliases sec) :
    lookupKey sf.authorsMap a = some e ∧
      (KeysNodup s0.authorsMap → KeysNodup sf.authorsMap) := by
  rw [runState_append] at hrun
  cases hp : runState s0 pre with
  | error e0 =>
    rw [hp] at hrun
    exact absurd hrun (by simp [Except.bind])
  | ok s1 =>
    rw [hp] at hrun
    simp only [Except.bind] at hrun
    rw [runState_cons] at hrun
    cases hy2 : processSection s1 y with
    | error e0 =>
      rw [hy2] at hrun
      exact absurd hrun (by simp)
    | ok p =>
      rw [hy2] at hrun
      constructor
      · rw [runState_lookup_preserved post p.2 sf hrun a hpost]
        exact processSection_lookup_last s1 y p.1 p.2 a e l1 l2 hy2 hy he hl2
      · intro hn
        exact runState_keysNodup post p.2 sf hrun
          (processSection_keysNodup s1 y p.1 p.2 hy2 (runState_keysNodup pre s0 s1 hp hn))

/-- C5 witness: `bob` is credited with url `u1` in the first section and
url `u2` in the second; a third section has no committers; the final
registry holds the second section's record. -/
theorem c5_witness :
    lookupKey c5Final.authorsMap (("bob").toList) = some c5AuthorY ∧
      (KeysNodup initialState.authorsMap → KeysNodup c5Final.authorsMap) :=
  c5_theorem initialState [(("\n# [p](q) (r)\n## Committers: 1\n- [@bob](u1)").toList)]
    [(("\n# [w](x) (y)\nz").toList)]
    (("\n# [s](t) (v)\n## Committers: 1\n- [@bob](u2)").toList)
    c5Final rfl (("bob").toList) c5AuthorY [] [] rfl rfl
    (fun x hx => absurd hx (List.not_mem_nil x))
    (by decide)

/-!
Theorems: publish-time disambiguation (claim C2).  The `while` loop
always exits because the candidate strings for distinct hours are
pairwise distinct, so at most `times.length` probes can collide.
-/

theorem timeString_hour_inj (d : List Char) (h1 h2 : Int)
    (he : timeString d h1 = timeString d h2) : h1 = h2 := by
  unfold timeString at he
  have h3 := List.append_cancel_left he
  injection h3 with _ h4
  exact intStr_injective (List.append_cancel_right h4)

theorem findFreeHourAux_spec (times : List (List Char)) (d : List Char) :
    ∀ (fuel : Nat) (h : Int), (∃ k : Nat, k < fuel ∧ timeString d (h - k) ∉ times) →
      timeString d (findFreeHourAux times d fuel h) ∉ times ∧
        (∀ h' : Int, findFreeHourAux times d fuel h < h' → h' ≤ h → timeString d h' ∈ times) ∧
        findFreeHourAux times d fuel h ≤ h := by
  intro fuel
  induction fuel with
  | zero =>
    rintro h ⟨k, hk, -⟩
    omega
  | succ fuel ih =>
    rintro h ⟨k, hk, hfree⟩
    have heq : findFreeHourAux times d (fuel + 1) h =
        (if timeString d h ∈ times then findFreeHourAux times d fuel (h - 1) else h) := rfl
    by_cases hmem : timeString d h ∈ times
    · have hk0 : k ≠ 0 := by
        intro h0
        subst h0
        exact hfree (by simpa using hmem)
      have harith : h - 1 - ((k - 1 : Nat) : Int) = h - k := by omega
      have hrec := ih (h - 1) ⟨k - 1, by omega, by rw [harith]; exact hfree⟩
      rw [heq, if_pos hmem]
      refine ⟨hrec.1, ?_, by have := hrec.2.2; omega⟩
      intro h' hlt hle
      by_cases hple : h' ≤ h - 1
      · exact hrec.2.1 h' hlt hple
      · have hh : h' = h := by omega
        rw [hh]
        exact hmem
    · rw [heq, if_neg hmem]
      exact ⟨hmem, fun h' hlt hle => by omega, le_refl h⟩

theorem findFreeHour_exists_free (times : List (List Char)) (d : List Char) :
    ∃ k : Nat, k < times.length + 1 ∧ timeString d (20 - (k : Int)) ∉ times := by
  by_contra hcon
  push_neg at hcon
  have hinj : Function.Injective
      (fun k : Fin (times.length + 1) => timeString d (20 - (k : Int))) := by
    intro k1 k2 he
    have h1 := timeString_hour_inj d _ _ he
    have h2 : ((k1 : Nat) : Int) = ((k2 : Nat) : Int) := by omega
    exact Fin.ext (by exact_mod_cast h2)
  have hsub : Finset.univ.image
      (fun k : Fin (times.length + 1) => timeString d (20 - (k : Int))) ⊆ times.toFinset := by
    intro x hx
    rw [Finset.mem_image] at hx
    obtain ⟨k, -, hk⟩ := hx
    rw [List.mem_toFinset, ← hk]
    exact hcon (k : Nat) k.isLt
  have hcard := Finset.card_le_card hsub
  rw [Finset.card_image_of_injective _ hinj, Finset.card_univ, Fintype.card_fin] at hcard
  have := List.toFinset_card_le times
  omega

theorem findFreeHour_free (times : List (List Char)) (d : List Char) :
    timeString d (findFreeHour times d) ∉ times := by
  obtain ⟨k, hk, hfree⟩ := findFreeHour_exists_free times d
  exact (findFreeHourAux_spec times d (times.length + 1) 20 ⟨k, hk, hfree⟩).1

theorem findFreeHour_above (times : List (List Char)) (d : List Char) (h' : Int)
    (hlt : findFreeHour times d < h') (hle : h' ≤ 20) : timeString d h' ∈ times := by
  obtain ⟨k, hk, hfree⟩ := findFreeHour_exists_free times d
  exact (findFreeHourAux_spec times d (times.length + 1) 20 ⟨k, hk, hfree⟩).2.1 h' hlt hle

theorem findFreeHour_le (times : List (List Char)) (d : List Char) :
    findFreeHour times d ≤ 20 := by
  obtain ⟨k, hk, hfree⟩ := findFreeHour_exists_free times d
  exact (findFreeHourAux_spec times d (times.length + 1) 20 ⟨k, hk, hfree⟩).2.2

theorem mem_setAdd_self (t : List Char) (times : List (List Char)) : t ∈ setAdd t times := by
  unfold setAdd
  split
  · assumption
  · exact List.mem_cons_self t times

theorem mem_setAdd_of_mem (x t : List Char) (times : List (List Char)) (h : t ∈ times) :
    t ∈ setAdd x times := by
  unfold setAdd
  split
  · exact h
  · exact List.mem_cons_of_mem x h

theorem processSection_times_some (st : ModState) (sec : List Char) (tm : TitleMatch)
    (od : Option Doc) (st' : ModState) (hft : findTitle sec = some tm)
    (h : processSection st sec = .ok (od, st')) :
    st'.publishTimes =
      setAdd (timeString tm.date (findFreeHour st.publishTimes tm.date)) st.publishTimes := by
  cases hsa : sectionAuthors (sectionContent tm sec) with
  | error e =>
    have hps : processSection st sec = .error e := by
      simp [processSection, hft, hsa]
    rw [hps] at h
    exact absurd h (by simp)
  | ok authorsOpt =>
    have hps : processSection st sec =
        .ok (some (sectionDoc st tm (sectionContent tm sec) authorsOpt),
          sectionState st tm authorsOpt) := by
      simp [processSection, hft, hsa]
    rw [hps] at h
    injection h with h1
    injection h1 with _ h2
    rw [← h2]
    rfl

theorem processSection_times_mono (st : ModState) (sec : List Char)
    (od : Option Doc) (st' : ModState) (h : processSection st sec = .ok (od, st'))
    (t : List Char) (ht : t ∈ st.publishTimes) : t ∈ st'.publishTimes := by
  cases hft : findTitle sec with
  | none =>
    have hps : processSection st sec = .ok (none, st) := by
      simp [processSection, hft]
    rw [hps] at h
    injection h with h1
    injection h1 with _ h2
    rwa [← h2]
  | some tm =>
    rw [processSection_times_some st sec tm od st' hft h]
    exact mem_setAdd_of_mem _ t _ ht

theorem runState_times_mono (secs : List (List Char)) (st st' : ModState)
    (h : runState st secs = .ok st') (t : List Char) (ht : t ∈ st.publishTimes) :
    t ∈ st'.publishTimes := by
  induction secs generalizing st with
  | nil =>
    injection h with h1
    rwa [← h1]
  | cons sec rest ih =>
    rw [runState_cons] at h
    cases hp : processSection st sec with
    | error e =>
      rw [hp] at h
      exact absurd h (by simp)
    | ok p =>
      rw [hp] at h
      exact ih p.2 h (processSection_times_mono st sec p.1 p.2 hp t ht)

/-- C2: in any run, for two titled sections at positions `i < j`, the
timestamp reserved for section `i` differs from the one reserved for
section `j`, and when they share a release date the earlier (topmost)
section gets the strictly higher hour. -/
theorem c2_theorem (s0 : ModState) (secs : List (List Char)) (i j : Nat)
    (hij : i < j) (hjlen : j < secs.length)
    (si sj : ModState)
    (hi : runState s0 (secs.take i) = .ok si)
    (hj : runState s0 (secs.take j) = .ok sj)
    (tmi tmj : TitleMatch)
    (hti : findTitle (secs.get ⟨i, by omega⟩) = some tmi)
    (_htj : findTitle (secs.get ⟨j, hjlen⟩) = some tmj) :
    timeString tmi.date (findFreeHour si.publishTimes tmi.date) ≠
        timeString tmj.date (findFreeHour sj.publishTimes tmj.date) ∧
      (tmi.date = tmj.date →
        findFreeHour sj.publishTimes tmj.date < findFreeHour si.publishTimes tmi.date) := by
  have hilen : i < secs.length := by omega
  have hitake : i < (secs.take j).length := by
    rw [List.length_take]
    omega
  have hsplit : secs.take j = secs.take i ++ ((secs.take j).drop i) := by
    conv_lhs => rw [← List.take_append_drop i (secs.take j)]
    rw [List.take_take, min_eq_left (le_of_lt hij)]
  have hdrop : (secs.take j).drop i =
      secs.get ⟨i, hilen⟩ :: (secs.take j).drop (i + 1) := by
    rw [List.drop_eq_getElem_cons hitake]
    congr 1
    rw [List.getElem_take]
    rfl
  rw [hsplit, runState_append, hi] at hj
  simp only [Except.bind] at hj
  rw [hdrop, runState_cons] at hj
  cases hp : processSection si (secs.get ⟨i, hilen⟩) with
  | error e =>
    rw [hp] at hj
    exact absurd hj (by simp)
  | ok p =>
    rw [hp] at hj
    have hstep : p.2.publishTimes =
        setAdd (timeString tmi.date (findFreeHour si.publishTimes tmi.date)) si.publishTimes :=
      processSection_times_some si _ tmi p.1 p.2 hti hp
    have htsi_in : timeString tmi.date (findFreeHour si.publishTimes tmi.date) ∈
        sj.publishTimes := by
      apply runState_times_mono _ p.2 sj hj
      rw [hstep]
      exact mem_setAdd_self _ _
    have hsubJ : ∀ t ∈ si.publishTimes, t ∈ sj.publishTimes := by
      intro t ht
      apply runState_times_mono _ p.2 sj hj
      rw [hstep]
      exact mem_setAdd_of_mem _ t _ ht
    have htsj_free : timeString tmj.date (findFreeHour sj.publishTimes tmj.date) ∉
        sj.publishTimes := findFreeHour_free sj.publishTimes tmj.date
    constructor
    · intro he
      rw [he] at htsi_in
      exact htsj_free htsi_in
    · intro hd
      rw [← hd] at htsj_free ⊢
      by_contra hcon
      push_neg at hcon
      rcases lt_or_eq_of_le hcon with hlt | heqh
      · apply htsj_free
        apply hsubJ
        exact findFreeHour_above si.publishTimes tmi.date _ hlt
          (findFreeHour_le sj.publishTimes tmi.date)
      · apply htsj_free
        rw [← heqh]
        exact htsi_in

/-- C2 witness: two sections with the same release date `c`: the first
gets hour 20, the second hour 19. -/
theorem c2_witness :
    timeString (("c").toList)
          (findFreeHour (ModState.publishTimes ⟨[], []⟩) (("c").toList)) ≠
        timeString (("c").toList)
          (findFreeHour (ModState.publishTimes ⟨[("cT20:00").toList], []⟩) (("c").toList)) ∧
      ((("c").toList) = (("c").toList) →
        findFreeHour (ModState.publishTimes ⟨[("cT20:00").toList], []⟩) (("c").toList) <
          findFreeHour (ModState.publishTimes ⟨[], []⟩) (("c").toList)) :=
  c2_theorem initialState [c2SecA, c2SecB] 0 1 (by decide) (by decide)
    ⟨[], []⟩ ⟨[("cT20:00").toList], []⟩ rfl rfl
    ⟨[], 1, ("a").toList, ("b").toList, ("c").toList, []⟩
    ⟨[], 1, ("e").toList, ("f").toList, ("c").toList, []⟩
    rfl rfl

/-!
Theorems: the extraction pipeline over well-formed changelogs (claim C1).
-/

theorem replaceAllChar_id (c : Char) (rep s : List Char) (h : c ∉ s) :
    replaceAllChar c rep s = s := by
  induction s with
  | nil => rfl
  | cons x r ih =>
    have hx : ¬ x = c := fun he => h (by simp [he])
    have ihr := ih (fun hm => h (List.mem_cons_of_mem x hm))
    have key : replaceAllChar c rep (x :: r) =
        (if x = c then rep else [x]) ++ replaceAllChar c rep r := rfl
    rw [key, if_neg hx, ihr]
    rfl

theorem replaceFirst_self (pat s : List Char) : replaceFirst pat pat s = s := by
  induction s with
  | nil =>
    unfold replaceFirst
    split
    · rename_i hp
      rw [List.isPrefixOf_iff_prefix] at hp
      have := List.prefix_nil.mp hp
      simp [this]
    · rfl
  | cons x r ih =>
    unfold replaceFirst
    split
    · rename_i hp
      rw [List.isPrefixOf_iff_prefix] at hp
      obtain ⟨t, ht⟩ := hp
      conv_rhs => rw [← ht]
      rw [← ht, List.drop_left]
    · rw [ih]

theorem sanitize_id (s : List Char) (h1 : '<' ∉ s) (h2 : '>' ∉ s) : sanitize s = s := by
  unfold sanitize
  rw [replaceAllChar_id '<' _ s h1, replaceAllChar_id '>' _ s h2, replaceFirst_self]

theorem replaceFirst_head (pat rep t : List Char) :
    replaceFirst pat rep (pat ++ t) = rep ++ t := by
  cases pat with
  | nil =>
    cases t with
    | nil => simp [replaceFirst, List.isPrefixOf]
    | cons c r =>
      show replaceFirst [] rep (c :: r) = rep ++ c :: r
      unfold replaceFirst
      rw [if_pos (by rw [List.isPrefixOf_iff_prefix]; exact List.nil_prefix)]
      rfl
  | cons p0 ps =>
    show replaceFirst (p0 :: ps) rep (p0 :: (ps ++ t)) = rep ++ t
    unfold replaceFirst
    rw [if_pos (by rw [List.isPrefixOf_iff_prefix]; exact ⟨t, by simp⟩)]
    have hd : (p0 :: (ps ++ t)).drop (p0 :: ps).length = t := by
      rw [List.length_cons, List.drop_succ_cons, List.drop_left]
    rw [hd]

theorem matchLink_shape (l d rest : List Char)
    (hl1 : ')' ∉ l) (hl2 : '\n' ∉ l) (hd1 : ')' ∉ d) (hd2 : '\n' ∉ d) :
    matchLink (l ++ (')' :: ' ' :: '(' :: (d ++ ')' :: rest))) = some (l, d, rest) := by
  induction l with
  | nil =>
    rw [List.nil_append]
    have hcond : ((')' : Char) = ')' ∧ List.isPrefixOf [' ', '('] (' ' :: '(' :: (d ++ ')' :: rest))) := by
      refine ⟨rfl, ?_⟩
      rw [List.isPrefixOf_iff_prefix]
      exact ⟨d ++ ')' :: rest, rfl⟩
    have hlz : lazyClose (d ++ ')' :: rest) = some (d, rest) :=
      lazyClose_shape d rest hd1 hd2
    simp [matchLink, hcond, hlz]
  | cons c l' ih =>
    have hc1 : c ≠ '\n' := fun he => hl2 (by simp [he])
    have hc2 : ¬ (c = ')' ∧ List.isPrefixOf [' ', '('] (l' ++ (')' :: ' ' :: '(' :: (d ++ ')' :: rest)))) := by
      rintro ⟨he, -⟩
      exact hl1 (by simp [he])
    rw [List.cons_append]
    simp only [matchLink]
    rw [if_neg hc1, if_neg hc2]
    rw [ih (fun hm => hl1 (List.mem_cons_of_mem c hm)) (fun hm => hl2 (List.mem_cons_of_mem c hm))]
    rfl

theorem matchVer_shape (v l d rest : List Char)
    (hv1 : ']' ∉ v) (hv2 : '\n' ∉ v)
    (hl1 : ')' ∉ l) (hl2 : '\n' ∉ l) (hd1 : ')' ∉ d) (hd2 : '\n' ∉ d) :
    matchVer (v ++ (']' :: '(' :: (l ++ (')' :: ' ' :: '(' :: (d ++ ')' :: rest))))) =
      some (v, l, d, rest) := by
  induction v with
  | nil =>
    rw [List.nil_append]
    have hcond : ((']' : Char) = ']' ∧
        List.isPrefixOf ['('] ('(' :: (l ++ (')' :: ' ' :: '(' :: (d ++ ')' :: rest))))) := by
      refine ⟨rfl, ?_⟩
      rw [List.isPrefixOf_iff_prefix]
      exact ⟨l ++ (')' :: ' ' :: '(' :: (d ++ ')' :: rest)), rfl⟩
    have hml := matchLink_shape l d rest hl1 hl2 hd1 hd2
    simp [matchVer, hcond, hml]
  | cons c v' ih =>
    have hc1 : c ≠ '\n' := fun he => hv2 (by simp [he])
    have hc2 : ¬ (c = ']' ∧ List.isPrefixOf ['(']
        (v' ++ (']' :: '(' :: (l ++ (')' :: ' ' :: '(' :: (d ++ ')' :: rest)))))) := by
      rintro ⟨he, -⟩
      exact hv1 (by simp [he])
    rw [List.cons_append]
    simp only [matchVer]
    rw [if_neg hc1, if_neg hc2]
    rw [ih (fun hm => hv1 (List.mem_cons_of_mem c hm)) (fun hm => hv2 (List.mem_cons_of_mem c hm))]
    rfl

theorem hashRun_replicate (k : Nat) (c : Char) (t : List Char) (hc : c ≠ '#') :
    hashRun (List.replicate k '#' ++ c :: t) = (k, c :: t) := by
  induction k with
  | zero => simp [hashRun, hc]
  | succ k ih => simp [List.replicate_succ, hashRun, ih]

theorem headingCore_append (k : Nat) (v l d body : List Char) :
    headingCore k v l d ++ body =
      List.replicate k '#' ++
        (' ' :: '[' :: (v ++ (']' :: '(' :: (l ++ (')' :: ' ' :: '(' :: (d ++ ')' :: body)))))) := by
  simp [headingCore]

theorem matchTitleAt_shape (k : Nat) (v l d body : List Char)
    (hk1 : 1 ≤ k) (hk3 : k ≤ 3)
    (hv1 : ']' ∉ v) (hv2 : '\n' ∉ v)
    (hl1 : ')' ∉ l) (hl2 : '\n' ∉ l) (hd1 : ')' ∉ d) (hd2 : '\n' ∉ d) :
    matchTitleAt (buildTitleStr k v l d ++ body) = some (k, v, l, d, body) := by
  have hbt : buildTitleStr k v l d ++ body = '\n' :: (headingCore k v l d ++ body) := rfl
  rw [hbt, headingCore_append]
  have hrun := hashRun_replicate k ' '
    ('[' :: (v ++ (']' :: '(' :: (l ++ (')' :: ' ' :: '(' :: (d ++ ')' :: body)))))) (by decide)
  have hpre : List.isPrefixOf [' ', '[']
      (' ' :: '[' :: (v ++ (']' :: '(' :: (l ++ (')' :: ' ' :: '(' :: (d ++ ')' :: body)))))) = true := by
    rw [List.isPrefixOf_iff_prefix]
    exact ⟨v ++ (']' :: '(' :: (l ++ (')' :: ' ' :: '(' :: (d ++ ')' :: body)))), rfl⟩
  have hmv := matchVer_shape v l d body hv1 hv2 hl1 hl2 hd1 hd2
  simp [matchTitleAt, hrun, hpre, hmv, hk1, hk3]

theorem trim_subset (s : List Char) : ∀ x ∈ trim s, x ∈ s := by
  intro x hx
  unfold trim at hx
  rw [List.mem_reverse] at hx
  have h1 := (List.dropWhile_sublist (l := (s.dropWhile isWS).reverse) isWS).subset hx
  rw [List.mem_reverse] at h1
  exact (List.dropWhile_sublist (l := s) isWS).subset h1

theorem findCommittersBlock_none (s : List Char) (h : '#' ∉ s) :
    findCommittersBlock s = none := by
  induction s with
  | nil => rfl
  | cons c r ih =>
    have hca : committersAt (c :: r) = false := by
      unfold committersAt
      have hpre : List.isPrefixOf (("## Committers: ").toList) (c :: r) = false := by
        by_contra hcon
        rw [Bool.not_eq_false, List.isPrefixOf_iff_prefix] at hcon
        obtain ⟨t, ht⟩ := hcon
        rw [show ("## Committers: ").toList =
          '#' :: (("# Committers: ").toList) from rfl, List.cons_append] at ht
        injection ht with h1 _
        exact h (by rw [← h1]; simp)
      rw [hpre]
      rfl
    simp [findCommittersBlock, hca, ih (fun hm => h (List.mem_cons_of_mem c hm))]

theorem sectionAuthors_none (content : List Char) (h : '#' ∉ content) :
    sectionAuthors content = Except.ok none := by
  unfold sectionAuthors
  rw [findCommittersBlock_none content h]

theorem findTitle_render (r : Release) (h : WFRelease r) :
    findTitle (renderSection r) = some (renderTM r) := by
  obtain ⟨hk1, hk3, ⟨hv2, hv1, -, -⟩, ⟨hl2, hl1, -, -⟩, ⟨hd2, hd1, -, -⟩, -, -, -⟩ := h
  have hmt := matchTitleAt_shape r.hashes r.version r.link r.date r.body
    hk1 hk3 hv1 hv2 hl1 hl2 hd1 hd2
  have hmt2 : matchTitleAt ('\n' :: (headingCore r.hashes r.version r.link r.date ++ r.body)) =
      some (r.hashes, r.version, r.link, r.date, r.body) := hmt
  show findTitle ('\n' :: (headingCore r.hashes r.version r.link r.date ++ r.body)) =
    some (renderTM r)
  simp [findTitle, hmt2, renderTM]

theorem sectionContent_render (r : Release) :
    sectionContent (renderTM r) (renderSection r) = trim r.body := by
  unfold sectionContent renderSection renderTM
  rw [replaceFirst_head]
  rfl

theorem processSection_render (st : ModState) (r : Release) (h : WFRelease r) :
    processSection st (renderSection r) =
      .ok (some (sectionDoc st (renderTM r) (trim r.body) none),
        sectionState st (renderTM r) none) := by
  have hft := findTitle_render r h
  have hsc := sectionContent_render r
  have hsa : sectionAuthors (trim r.body) = Except.ok none := by
    apply sectionAuthors_none
    intro hm
    exact h.2.2.2.2.2.1 (trim_subset r.body '#' hm)
  simp [processSection, hft, hsc, hsa]

theorem runSections_render (rs : List Release) :
    ∀ st : ModState, (∀ r ∈ rs, WFRelease r) →
      ∃ sf docs, runSections st (rs.map renderSection) = .ok (sf, docs) ∧
        docs.map Doc.title = rs.map Release.version := by
  induction rs with
  | nil => exact fun st _ => ⟨st, [], rfl, rfl⟩
  | cons r0 rs' ih =>
    intro st hwf
    have hr0 := hwf r0 (List.mem_cons_self r0 rs')
    have hstep := processSection_render st r0 hr0
    obtain ⟨sf, docs, hrun, htitles⟩ :=
      ih (sectionState st (renderTM r0) none) (fun r hr => hwf r (List.mem_cons_of_mem r0 hr))
    refine ⟨sf, sectionDoc st (renderTM r0) (trim r0.body) none :: docs, ?_, ?_⟩
    · rw [List.map_cons, runSections_cons, hstep]
      show (match runSections (sectionState st (renderTM r0) none) (rs'.map renderSection) with
            | Except.error e => Except.error e
            | Except.ok q =>
              Except.ok (q.1, sectionDoc st (renderTM r0) (trim r0.body) none :: q.2)) =
        Except.ok (sf, sectionDoc st (renderTM r0) (trim r0.body) none :: docs)
      rw [hrun]
    · rw [List.map_cons, htitles]
      rfl

theorem existsTailClose_shape (d w : List Char) (hd1 : ')' ∉ d) (hd2 : '\n' ∉ d) :
    existsTailClose (d ++ ')' :: w) = true := by
  induction d with
  | nil => rfl
  | cons c d' ih =>
    have hc1 : c ≠ ')' := fun he => hd1 (by simp [he])
    have hc2 : c ≠ '\n' := fun he => hd2 (by simp [he])
    rw [List.cons_append]
    simp only [existsTailClose]
    rw [if_neg hc1, if_neg hc2]
    exact ih (fun hm => hd1 (List.mem_cons_of_mem c hm))
      (fun hm => hd2 (List.mem_cons_of_mem c hm))

theorem existsMid_shape (l d w : List Char)
    (hl1 : ')' ∉ l) (hl2 : '\n' ∉ l) (hd1 : ')' ∉ d) (hd2 : '\n' ∉ d) :
    existsMid (l ++ (')' :: ' ' :: '(' :: (d ++ ')' :: w))) = true := by
  induction l with
  | nil =>
    have h1 : existsTailClose (d ++ ')' :: w) = true := existsTailClose_shape d w hd1 hd2
    have h2 : List.isPrefixOf [' ', '('] (' ' :: '(' :: (d ++ ')' :: w)) = true := by
      rw [List.isPrefixOf_iff_prefix]
      exact ⟨d ++ ')' :: w, rfl⟩
    simp [existsMid, h1, h2]
  | cons c l' ih =>
    have hc : c ≠ '\n' := fun he => hl2 (by simp [he])
    have ihh := ih (fun hm => hl1 (List.mem_cons_of_mem c hm))
      (fun hm => hl2 (List.mem_cons_of_mem c hm))
    rw [List.cons_append]
    simp [existsMid, hc, ihh]

theorem existsHeadBody_shape (v l d w : List Char)
    (hv1 : ']' ∉ v) (hv2 : '\n' ∉ v)
    (hl1 : ')' ∉ l) (hl2 : '\n' ∉ l) (hd1 : ')' ∉ d) (hd2 : '\n' ∉ d) :
    existsHeadBody (v ++ (']' :: '(' :: (l ++ (')' :: ' ' :: '(' :: (d ++ ')' :: w))))) = true := by
  induction v with
  | nil =>
    have h1 : existsMid (l ++ (')' :: ' ' :: '(' :: (d ++ ')' :: w))) = true :=
      existsMid_shape l d w hl1 hl2 hd1 hd2
    have h2 : List.isPrefixOf ['(']
        ('(' :: (l ++ (')' :: ' ' :: '(' :: (d ++ ')' :: w)))) = true := by
      rw [List.isPrefixOf_iff_prefix]
      exact ⟨l ++ (')' :: ' ' :: '(' :: (d ++ ')' :: w)), rfl⟩
    simp [existsHeadBody, h1, h2]
  | cons c v' ih =>
    have hc : c ≠ '\n' := fun he => hv2 (by simp [he])
    have ihh := ih (fun hm => hv1 (List.mem_cons_of_mem c hm))
      (fun hm => hv2 (List.mem_cons_of_mem c hm))
    rw [List.cons_append]
    simp [existsHeadBody, hc, ihh]

theorem headingLookahead_render (r : Release) (cont : List Char) (h : WFRelease r) :
    headingLookaheadAt (renderSection r ++ cont) = true := by
  obtain ⟨hk1, hk3, ⟨hv2, hv1, -, -⟩, ⟨hl2, hl1, -, -⟩, ⟨hd2, hd1, -, -⟩, -, -, -⟩ := h
  have hform : renderSection r ++ cont =
      '\n' :: (headingCore r.hashes r.version r.link r.date ++ (r.body ++ cont)) := by
    show (('\n' :: headingCore r.hashes r.version r.link r.date) ++ r.body) ++ cont = _
    simp [List.append_assoc]
  rw [hform, headingCore_append]
  have hrun := hashRun_replicate r.hashes ' '
    ('[' :: (r.version ++ (']' :: '(' :: (r.link ++
      (')' :: ' ' :: '(' :: (r.date ++ ')' :: (r.body ++ cont))))))) (by decide)
  have hpre : List.isPrefixOf [' ', '[']
      (' ' :: '[' :: (r.version ++ (']' :: '(' :: (r.link ++
        (')' :: ' ' :: '(' :: (r.date ++ ')' :: (r.body ++ cont))))))) = true := by
    rw [List.isPrefixOf_iff_prefix]
    exact ⟨r.version ++ (']' :: '(' :: (r.link ++
      (')' :: ' ' :: '(' :: (r.date ++ ')' :: (r.body ++ cont))))), rfl⟩
  have hbody := existsHeadBody_shape r.version r.link r.date (r.body ++ cont)
    hv1 hv2 hl1 hl2 hd1 hd2
  simp [headingLookaheadAt, hrun, hpre, hbody, hk1, hk3]

theorem no_interior_match (A body cont : List Char) (hA : '\n' ∉ A) (hb : '#' ∉ body)
    (hcont : cont = [] ∨ ∃ w, cont = '\n' :: w) :
    ∀ u1 u2, A ++ body = u1 ++ u2 → u2 ≠ [] → headingLookaheadAt (u2 ++ cont) = false := by
  intro u1 u2 hsplit hne
  cases u2 with
  | nil => exact absurd rfl hne
  | cons c w =>
    by_cases hc : c = '\n'
    · subst hc
      obtain ⟨b1, hb1⟩ := newline_split_in_tail A body u1 w hA hsplit
      cases w with
      | nil =>
        rcases hcont with hc0 | ⟨w', hw'⟩
        · subst hc0
          rfl
        · subst hw'
          simp [headingLookaheadAt, hashRun]
      | cons c2 w2 =>
        have hc2 : c2 ≠ '#' := fun he => hb (by rw [hb1, he]; simp)
        simp [headingLookaheadAt, hashRun, hc2]
    · simp [headingLookaheadAt, hc]

theorem splitGo_chunk (u : List Char) : ∀ (acc rest : List Char),
    acc ≠ [] →
    (∀ u1 u2, u = u1 ++ u2 → u2 ≠ [] → headingLookaheadAt (u2 ++ rest) = false) →
    (rest = [] → splitGo acc (u ++ rest) = [acc.reverse ++ u]) ∧
      (∀ c r, rest = c :: r → headingLookaheadAt rest = true →
        splitGo acc (u ++ rest) = (acc.reverse ++ u) :: splitGo [c] r) := by
  induction u with
  | nil =>
    intro acc rest hacc hno
    have haccF : acc.isEmpty = false := by
      cases acc with
      | nil => exact absurd rfl hacc
      | cons _ _ => rfl
    constructor
    · intro h0
      subst h0
      simp [splitGo]
    · intro c r hrest hla
      subst hrest
      rw [List.nil_append]
      simp only [splitGo, haccF]
      rw [if_neg (by simp), if_pos hla]
      simp
  | cons x u' ih =>
    intro acc rest hacc hno
    have haccF : acc.isEmpty = false := by
      cases acc with
      | nil => exact absurd rfl hacc
      | cons _ _ => rfl
    have hx : headingLookaheadAt ((x :: u') ++ rest) = false :=
      hno [] (x :: u') rfl (by simp)
    have step : splitGo acc ((x :: u') ++ rest) = splitGo (x :: acc) (u' ++ rest) := by
      rw [List.cons_append]
      simp only [splitGo, haccF]
      rw [if_neg (by simp), if_neg (by simpa using hx)]
    have ihh := ih (x :: acc) rest (by simp)
      (fun u1 u2 he hne => hno (x :: u1) u2 (by rw [he]; rfl) hne)
    constructor
    · intro h0
      rw [step, ihh.1 h0]
      simp
    · intro c r hrest hla
      rw [step, ihh.2 c r hrest hla]
      simp

theorem splitGo_render (rs : List Release) :
    (∀ r ∈ rs, WFRelease r) →
    ∀ r0 : Release, WFRelease r0 →
      splitGo ['\n']
          ((headingCore r0.hashes r0.version r0.link r0.date ++ r0.body) ++ renderChangelog rs) =
        renderSection r0 :: rs.map renderSection := by
  induction rs with
  | nil =>
    intro _ r0 h0
    obtain ⟨-, -, ⟨hv2, -, -, -⟩, ⟨hl2, -, -, -⟩, ⟨hd2, -, -, -⟩, hb1, -, -⟩ := h0
    have hNI := no_interior_match (headingCore r0.hashes r0.version r0.link r0.date) r0.body []
      (headingCore_no_newline _ _ _ _ hv2 hl2 hd2) hb1 (Or.inl rfl)
    have hL1 := (splitGo_chunk
      ((headingCore r0.hashes r0.version r0.link r0.date) ++ r0.body) ['\n'] []
      (by simp) hNI).1 rfl
    have hrc : renderChangelog ([] : List Release) = [] := rfl
    rw [hrc, hL1]
    rfl
  | cons r1 rs' ih =>
    intro hwf r0 h0
    obtain ⟨-, -, ⟨hv2, -, -, -⟩, ⟨hl2, -, -, -⟩, ⟨hd2, -, -, -⟩, hb1, -, -⟩ := h0
    have h1 : WFRelease r1 := hwf r1 (List.mem_cons_self r1 rs')
    have hrc : renderChangelog (r1 :: rs') = renderSection r1 ++ renderChangelog rs' := by
      simp [renderChangelog]
    have hrest : renderSection r1 ++ renderChangelog rs' =
        '\n' :: ((headingCore r1.hashes r1.version r1.link r1.date ++ r1.body) ++
          renderChangelog rs') := by
      show (('\n' :: headingCore r1.hashes r1.version r1.link r1.date) ++ r1.body) ++ _ = _
      simp [List.append_assoc]
    have hla : headingLookaheadAt (renderSection r1 ++ renderChangelog rs') = true :=
      headingLookahead_render r1 _ h1
    have hNI := no_interior_match (headingCore r0.hashes r0.version r0.link r0.date) r0.body
      (renderSection r1 ++ renderChangelog rs')
      (headingCore_no_newline _ _ _ _ hv2 hl2 hd2) hb1 (Or.inr ⟨_, hrest⟩)
    have hL1 := (splitGo_chunk
      ((headingCore r0.hashes r0.version r0.link r0.date) ++ r0.body) ['\n']
      (renderSection r1 ++ renderChangelog rs') (by simp) hNI).2
      '\n' ((headingCore r1.hashes r1.version r1.link r1.date ++ r1.body) ++ renderChangelog rs')
      hrest hla
    rw [hrc, hL1, ih (fun r hr => hwf r (List.mem_cons_of_mem r1 hr)) r1 h1]
    rfl

theorem splitSections_render (rs : List Release) (hwf : ∀ r ∈ rs, WFRelease r)
    (hne : rs ≠ []) : splitSections (renderChangelog rs) = rs.map renderSection := by
  cases rs with
  | nil => exact absurd rfl hne
  | cons r0 rs' =>
    have h0 := hwf r0 (List.mem_cons_self r0 rs')
    have hrc : renderChangelog (r0 :: rs') =
        '\n' :: ((headingCore r0.hashes r0.version r0.link r0.date ++ r0.body) ++
          renderChangelog rs') := by
      have : renderChangelog (r0 :: rs') = renderSection r0 ++ renderChangelog rs' := by
        simp [renderChangelog]
      rw [this]
      show (('\n' :: headingCore r0.hashes r0.version r0.link r0.date) ++ r0.body) ++ _ = _
      simp [List.append_assoc]
    show splitGo [] (renderChangelog (r0 :: rs')) = _
    rw [hrc]
    show splitGo ['\n']
        ((headingCore r0.hashes r0.version r0.link r0.date ++ r0.body) ++ renderChangelog rs') = _
    exact splitGo_render rs' (fun r hr => hwf r (List.mem_cons_of_mem r0 hr)) r0 h0

theorem renderSection_no_angle (r : Release) (h : WFRelease r) :
    '<' ∉ renderSection r ∧ '>' ∉ renderSection r := by
  obtain ⟨-, -, ⟨-, -, hv3, hv4⟩, ⟨-, -, hl3, hl4⟩, ⟨-, -, hd3, hd4⟩, -, hb2, hb3⟩ := h
  constructor <;>
  · intro hmem
    simp [renderSection, buildTitleStr, headingCore] at hmem
    tauto

theorem renderChangelog_no_angle (rs : List Release) (hwf : ∀ r ∈ rs, WFRelease r) :
    '<' ∉ renderChangelog rs ∧ '>' ∉ renderChangelog rs := by
  constructor <;>
  · intro hmem
    rw [renderChangelog, List.mem_flatten] at hmem
    obtain ⟨l, hl, hmem⟩ := hmem
    rw [List.mem_map] at hl
    obtain ⟨r, hr, hrl⟩ := hl
    rw [← hrl] at hmem
    rcases renderSection_no_angle r (hwf r hr) with ⟨h1, h2⟩
    first
      | exact h1 hmem
      | exact h2 hmem

/-- C1: a changelog whose very first character starts a (well-formed)
release heading yields no document for that release: the pipeline returns
zero documents even though the text is one well-formed heading line plus a
body, because both the split boundary and the title match require a
leading newline. -/
theorem c1_counterexample :
    (matchTitleAt ('\n' :: (("# [a](b) (c)\nx").toList))).isSome = true ∧
      changelogPipeline initialState (("# [a](b) (c)\nx").toList) =
        Except.ok (initialState, []) :=
  ⟨rfl, rfl⟩

/-- C1 (amended): for every changelog composed of well-formed release
sections, each starting with a newline followed by a heading line
`#{1,3} [version](link) (date)` and a body free of `#` and angle
brackets, with pairwise-distinct version strings, the pipeline produces
exactly one document per section, titles equal the version strings, and
all titles are distinct. -/
theorem c1_theorem (rs : List Release) (hwf : ∀ r ∈ rs, WFRelease r)
    (hnd : (rs.map Release.version).Nodup) (s0 : ModState) :
    ∃ sf docs, changelogPipeline s0 (renderChangelog rs) = .ok (sf, docs) ∧
      docs.map Doc.title = rs.map Release.version ∧
      docs.length = rs.length ∧ (docs.map Doc.title).Nodup := by
  have hang := renderChangelog_no_angle rs hwf
  have hsan := sanitize_id _ hang.1 hang.2
  cases rs with
  | nil => exact ⟨s0, [], rfl, rfl, rfl, List.nodup_nil⟩
  | cons r0 rs' =>
    have hsplit := splitSections_render (r0 :: rs') hwf (by simp)
    obtain ⟨sf, docs, hrun, htitles⟩ := runSections_render (r0 :: rs') s0 hwf
    refine ⟨sf, docs, ?_, htitles, ?_, ?_⟩
    · unfold changelogPipeline
      rw [hsan, hsplit]
      exact hrun
    · have hlen := congrArg List.length htitles
      simpa using hlen
    · rw [htitles]
      exact hnd

/-- C1 witness: the single-release changelog `\n## [1.0](L) (D)\nbody`. -/
theorem c1_witness :
    ∃ sf docs, changelogPipeline initialState (renderChangelog [c1Rel]) = .ok (sf, docs) ∧
      docs.map Doc.title = [c1Rel].map Release.version ∧
      docs.length = ([c1Rel] : List Release).length ∧ (docs.map Doc.title).Nodup :=
  c1_theorem [c1Rel] (by decide) (by decide) initialState

end SJS
